import Mathlib

/-!
Verification of the event-registry (EventEmitter) implemented in
src/src/adapter.d.ts of aspectron/rusty-kaspa-adapter.

The registry owns a JavaScript Map from event names to arrays of listener
records (class EE: fn, context, once).  Because the source relies on array
aliasing (removal builds a fresh array while registration pushes onto the
existing one, and an in-flight emit keeps iterating the array it captured),
the embedding models arrays as references into an explicit store:
each table entry is a reference, addListener pushes in place through the
reference, and removeListener allocates a new array and repoints the key,
exactly as the source does.

JavaScript values that the registry inspects (truthiness of the context
argument, the typeof-function check on fn, strict equality in the removal
filter) are modelled by the JSVal type below.
-/

/-- A JavaScript value, as far as the registry observes one: it checks
truthiness (context || emitter, if (context), if (event), if (!fn)), the
typeof fn check, and strict equality (===) on fn and context.  Functions
and plain objects are identified by reference, modelled as a numeric id;
the owning emitter instance is the distinguished value emitterRef. -/
inductive JSVal where
  | undefined
  | null
  | bool (b : Bool)
  | int (n : Int)
  | str (s : String)
  | fnv (id : Nat)
  | obj (id : Nat)
  | emitterRef
deriving DecidableEq

/-- JavaScript truthiness for the values above (undefined, null, false, 0
and the empty string are falsy; objects and functions are truthy). -/
def JSVal.truthy : JSVal → Bool
  | .undefined => false
  | .null => false
  | .bool b => b
  | .int n => n != 0
  | .str s => s ≠ ""
  | .fnv _ => true
  | .obj _ => true
  | .emitterRef => true

/-- The typeof v === "function" check used by addListener. -/
def JSVal.isFunction : JSVal → Bool
  | .fnv _ => true
  | _ => false

/-- Event identifiers; the source accepts strings or symbols, and only ever
branches on truthiness (the empty string is the only falsy string). -/
abbrev EventName := String

/-- Representation of a single event listener (class EE of the source):
the listener function, the context to invoke it with, and the one-time
flag. -/
structure EE where
  fn : JSVal
  context : JSVal
  once : Bool
deriving DecidableEq

/-- Lookup in an insertion-ordered association list, the model of
JavaScript Map.get. -/
def mapGet {κ α : Type} [DecidableEq κ] : List (κ × α) → κ → Option α
  | [], _ => none
  | p :: rest, k => if p.1 = k then some p.2 else mapGet rest k

/-- JavaScript Map.has. -/
def mapHas {κ α : Type} [DecidableEq κ] (m : List (κ × α)) (k : κ) : Bool :=
  (mapGet m k).isSome

/-- JavaScript Map.set: update in place when the key is present (keeping
its position), append a fresh entry otherwise. -/
def mapSet {κ α : Type} [DecidableEq κ] : List (κ × α) → κ → α → List (κ × α)
  | [], k, v => [(k, v)]
  | p :: rest, k, v => if p.1 = k then (k, v) :: rest else p :: mapSet rest k v

/-- JavaScript Map.delete. -/
def mapDelete {κ α : Type} [DecidableEq κ] : List (κ × α) → κ → List (κ × α)
  | [], _ => []
  | p :: rest, k => if p.1 = k then mapDelete rest k else p :: mapDelete rest k

/-- The array heap: listener arrays are identified by a reference so that
the aliasing behaviour of the source (in-place push versus
allocate-and-repoint removal) is observable in the model. -/
structure Store where
  arrs : List (Nat × List EE)
  next : Nat
deriving DecidableEq

/-- Dereference an array; a dangling reference reads as the empty array. -/
def storeGet (s : Store) (r : Nat) : List EE :=
  (mapGet s.arrs r).getD []

/-- Overwrite the array behind an existing reference (array mutation such
as push). -/
def storeSet (s : Store) (r : Nat) (v : List EE) : Store :=
  ⟨mapSet s.arrs r v, s.next⟩

/-- Allocate a fresh array (a new array literal in the source). -/
def alloc (s : Store) (v : List EE) : Nat × Store :=
  (s.next, ⟨mapSet s.arrs s.next v, s.next + 1⟩)

/-- The state of one EventEmitter instance: the _events Map, whose values
are references into the array store. -/
structure EmitterState where
  events : List (EventName × Nat)
  store : Store
deriving DecidableEq

/-- The freshly constructed emitter: this._events = new Map(). -/
def emptyEmitter : EmitterState := ⟨[], ⟨[], 0⟩⟩

/-- The listener array currently registered for an event (empty when the
key is absent); a derived read view, not a source function. -/
def getListeners (st : EmitterState) (e : EventName) : List EE :=
  match mapGet st.events e with
  | none => []
  | some r => storeGet st.store r

/-- Clear event by name (function clearEvent of the source):
emitter._events.delete(evt). -/
def clearEvent (st : EmitterState) (e : EventName) : EmitterState :=
  ⟨mapDelete st.events e, st.store⟩

/-- The only checked error of the registry (the TypeError thrown by
addListener), plus the ways a dispatch can end abnormally in the model:
a listener body throwing, and the artificial outcomes fuelExhausted (the
fuel bound of the interpreter ran out) and arrayHole (an index read past
the end of a captured array, which the prefix-stability of the store rules
out in every reachable configuration). -/
inductive RegError where
  | invalidListener
  | listenerThrew (code : Nat)
  | fuelExhausted
  | arrayHole
deriving DecidableEq

/-- Add a listener for a given event (free function addListener of the
source).  Throws the TypeError when fn is not a function, then builds
EE(fn, context || emitter, once); a fresh singleton array is installed for
an absent key, otherwise the listener is pushed onto the existing array in
place (through its reference). -/
def addListener (st : EmitterState) (event : EventName) (fn ctx : JSVal)
    (oc : Bool) : Except RegError EmitterState :=
  if fn.isFunction = false then
    .error .invalidListener
  else
    let listener : EE := ⟨fn, if ctx.truthy then ctx else .emitterRef, oc⟩
    if mapHas st.events event = false then
      let p := alloc st.store [listener]
      .ok ⟨mapSet st.events event p.1, p.2⟩
    else
      match mapGet st.events event with
      | none => .ok st
      | some r =>
        .ok ⟨st.events, storeSet st.store r (storeGet st.store r ++ [listener])⟩

/-- EventEmitter.prototype.on. -/
def EventEmitter.on (st : EmitterState) (event : EventName) (fn ctx : JSVal) :
    Except RegError EmitterState :=
  addListener st event fn ctx false

/-- EventEmitter.prototype.once. -/
def EventEmitter.once (st : EmitterState) (event : EventName) (fn ctx : JSVal) :
    Except RegError EmitterState :=
  addListener st event fn ctx true

/-- EventEmitter.prototype.addListener, which delegates to on. -/
def EventEmitter.addListener (st : EmitterState) (event : EventName)
    (fn ctx : JSVal) : Except RegError EmitterState :=
  EventEmitter.on st event fn ctx

/-- The kept test of removeListener's loop, negated membership of the
removal filter: a listener survives when its function differs from fn, or
the once filter is set and it is not one-time, or a truthy context was
supplied and its context differs. -/
def keepB (l : EE) (fn ctx : JSVal) (oc : Bool) : Bool :=
  l.fn ≠ fn || (oc && !l.once) || (ctx.truthy && l.context ≠ ctx)

/-- EventEmitter.prototype.removeListener.  Returns the state unchanged
for an absent key; clears the whole entry when fn is falsy; otherwise
builds a NEW array of the surviving listeners and repoints the key at it
(or deletes the key when none survive).  The !listeners branch of the
source cannot fire after the has check, because Map.get then returns the
stored array and arrays (even empty ones) are truthy. -/
def EventEmitter.removeListener (st : EmitterState) (event : EventName)
    (fn ctx : JSVal) (oc : Bool) : EmitterState :=
  match mapGet st.events event with
  | none => st
  | some r =>
    if fn.truthy = false then
      clearEvent st event
    else
      let kept := (storeGet st.store r).filter (fun l => keepB l fn ctx oc)
      if kept.isEmpty then
        clearEvent st event
      else
        let p := alloc st.store kept
        ⟨mapSet st.events event p.1, p.2⟩

/-- EventEmitter.prototype.off, which delegates to removeListener. -/
def EventEmitter.off (st : EmitterState) (event : EventName) (fn ctx : JSVal)
    (oc : Bool) : EmitterState :=
  EventEmitter.removeListener st event fn ctx oc

/-- EventEmitter.prototype.removeAllListeners: with a truthy event
argument, clears that single entry when present; with the argument omitted
(or falsy, such as the empty string) replaces the whole table by a new
Map. -/
def EventEmitter.removeAllListeners (st : EmitterState)
    (event : Option EventName) : EmitterState :=
  match event with
  | some e =>
    if e ≠ "" then
      if mapHas st.events e then clearEvent st e else st
    else
      ⟨[], st.store⟩
  | none => ⟨[], st.store⟩

/-- EventEmitter.prototype.eventNames. -/
def EventEmitter.eventNames (st : EmitterState) : List EventName :=
  st.events.map (fun p => p.1)

/-- EventEmitter.prototype.listeners: the registered callback functions,
in order. -/
def EventEmitter.listeners (st : EmitterState) (event : EventName) : List JSVal :=
  match mapGet st.events event with
  | none => []
  | some r => (storeGet st.store r).map (fun l => l.fn)

/-- EventEmitter.prototype.listenerCount. -/
def EventEmitter.listenerCount (st : EmitterState) (event : EventName) : Nat :=
  match mapGet st.events event with
  | none => 0
  | some r => (storeGet st.store r).length

/-- What a listener body may do when invoked: re-enter the registry
(register, remove, re-emit), observe listenerCount, or throw.  A body is a
straight-line sequence of these commands; obsCount writes the count it
reads into the trace, making counts observed from inside a listener body
part of the observable behaviour. -/
inductive Cmd where
  | onC (event : EventName) (fn : JSVal) (ctx : JSVal)
  | onceC (event : EventName) (fn : JSVal) (ctx : JSVal)
  | offC (event : EventName) (fn : JSVal) (ctx : JSVal) (oc : Bool)
  | removeAllC (event : Option EventName)
  | emitC (event : EventName) (args : List JSVal)
  | obsCount (event : EventName)
  | throwC (code : Nat)
deriving DecidableEq

/-- A program assigns a body to every function id. -/
def Program : Type := Nat → List Cmd

/-- The body of a listener function value. -/
def bodyOf (prog : Program) : JSVal → List Cmd
  | .fnv id => prog id
  | _ => []

/-- One observable step of a dispatch: a listener invocation
(fn.call(context, ...args)) or a listenerCount observation made from
inside a listener body. -/
inductive TraceEntry where
  | call (fn : JSVal) (ctx : JSVal) (args : List JSVal)
  | obs (event : EventName) (n : Nat)
deriving DecidableEq

/-- The invocation entries of a trace. -/
def callEntries (tr : List TraceEntry) : List TraceEntry :=
  tr.filter (fun t => match t with | .call _ _ _ => true | .obs _ _ => false)

mutual

/-- Run a listener body, threading the emitter state and accumulating the
trace; a some error aborts the remaining commands (an uncaught throw). -/
def runCmds (prog : Program) (fuel : Nat) (st : EmitterState) :
    List Cmd → Option RegError × EmitterState × List TraceEntry
  | [] => (none, st, [])
  | c :: cs =>
    let a := runCmd prog fuel st c
    match a.1 with
    | some e => (some e, a.2.1, a.2.2)
    | none =>
      let b := runCmds prog fuel a.2.1 cs
      (b.1, b.2.1, a.2.2 ++ b.2.2)
termination_by cmds => (fuel, 1 + sizeOf cmds)

/-- Run a single registry command issued from inside a listener body. -/
def runCmd (prog : Program) (fuel : Nat) (st : EmitterState) (c : Cmd) :
    Option RegError × EmitterState × List TraceEntry :=
  match c with
  | .onC e fn ctx =>
    match addListener st e fn ctx false with
    | .error err => (some err, st, [])
    | .ok st' => (none, st', [])
  | .onceC e fn ctx =>
    match addListener st e fn ctx true with
    | .error err => (some err, st, [])
    | .ok st' => (none, st', [])
  | .offC e fn ctx oc => (none, EventEmitter.removeListener st e fn ctx oc, [])
  | .removeAllC e => (none, EventEmitter.removeAllListeners st e, [])
  | .obsCount e => (none, st, [.obs e (EventEmitter.listenerCount st e)])
  | .emitC e args =>
    let a := EventEmitter.emit prog fuel st e args
    match a.1 with
    | .ok _ => (none, a.2.1, a.2.2)
    | .error err => (some err, a.2.1, a.2.2)
  | .throwC code => (some (.listenerThrew code), st, [])
termination_by (fuel, sizeOf c)

/-- EventEmitter.prototype.emit.  Captures the array reference currently
stored for the event; when it is absent or empty, returns false with no
side effect; otherwise caches its length and dispatches the loop.  The
fuel bound is a device of the model (uncontrolled listener re-entry into
emit need not terminate); every claim is stated with enough fuel. -/
def EventEmitter.emit (prog : Program) (fuel : Nat) (st : EmitterState)
    (event : EventName) (args : List JSVal) :
    Except RegError Bool × EmitterState × List TraceEntry :=
  match fuel, mapGet st.events event with
  | _, none => (.ok false, st, [])
  | 0, some r =>
    if (storeGet st.store r).length = 0 then (.ok false, st, [])
    else (.error .fuelExhausted, st, [])
  | fuel' + 1, some r =>
    if (storeGet st.store r).length = 0 then
      (.ok false, st, [])
    else
      let a := runEmitLoop prog fuel' st event args r 0 (storeGet st.store r).length
      (match a.1 with
       | none => .ok true
       | some err => .error err, a.2.1, a.2.2)
termination_by (fuel, 0)

/-- The for loop of emit: rem counts the remaining iterations out of the
cached length, i is the loop index.  Each iteration reads listeners[i]
through the captured reference r from the CURRENT store (the source reads
the captured array object; its cells below the cached length never change,
since pushes only append and removals allocate fresh arrays - a fact the
theorems below prove rather than assume), removes a one-time listener from
the table before invoking it, then invokes the listener's body. -/
def runEmitLoop (prog : Program) (fuel : Nat) (st : EmitterState)
    (event : EventName) (args : List JSVal) (r : Nat) (i rem : Nat) :
    Option RegError × EmitterState × List TraceEntry :=
  match rem, fuel with
  | 0, _ => (none, st, [])
  | _ + 1, 0 => (some .fuelExhausted, st, [])
  | rem' + 1, fuel' + 1 =>
    match (storeGet st.store r)[i]? with
    | none => (some .arrayHole, st, [])
    | some x =>
      let st1 :=
        if x.once then EventEmitter.removeListener st event x.fn .undefined true
        else st
      let a := runCmds prog fuel' st1 (bodyOf prog x.fn)
      match a.1 with
      | some err => (some err, a.2.1, .call x.fn x.context args :: a.2.2)
      | none =>
        let b := runEmitLoop prog (fuel' + 1) a.2.1 event args r (i + 1) rem'
        (b.1, b.2.1, .call x.fn x.context args :: a.2.2 ++ b.2.2)
termination_by (fuel, rem)

end

/-- A command that can neither throw, nor re-enter emit, nor fail the
function check of addListener; a dispatch whose listener bodies are tame
completes normally. -/
def tameCmd : Cmd → Bool
  | .onC _ fn _ => fn.isFunction
  | .onceC _ fn _ => fn.isFunction
  | .offC _ _ _ _ => true
  | .removeAllC _ => true
  | .obsCount _ => true
  | .emitC _ _ => false
  | .throwC _ => false

/-- The combined effect on an event entry of the one-shot removals that a
dispatch pass over the listeners l performs: a listener y survives them
all exactly when it is not one-time, or no one-time listener of l shares
its function. -/
def survives (l : List EE) (y : EE) : Bool :=
  !y.once || l.all (fun z => !z.once || z.fn ≠ y.fn)

/-- One iteration of the dispatch loop as a pure state transformer (the
one-shot removal followed by the listener body, which for emit-free bodies
is fuel-independent). -/
def listenerStep (prog : Program) (event : EventName) (st : EmitterState)
    (x : EE) : EmitterState :=
  let st1 :=
    if x.once then EventEmitter.removeListener st event x.fn .undefined true
    else st
  (runCmds prog 0 st1 (bodyOf prog x.fn)).2.1

/-- Store well-formedness: every allocated reference is below the
allocation counter, so a fresh allocation never collides. -/
def StoreWF (s : Store) : Prop := ∀ q ∈ s.arrs, q.1 < s.next

/-- Store evolution: arrays already allocated only ever grow at the end
(pushes append, removals allocate fresh arrays), so the prefix any
in-flight dispatch captured stays intact. -/
def storeLe (s s' : Store) : Prop :=
  s.next ≤ s'.next ∧ ∀ r, storeGet s r <+: storeGet s' r

/-- Well-formedness of an emitter state: event keys are unique, every
present key holds a non-empty listener array of genuine functions, its
reference is live, and the store counter dominates every allocation. -/
def WF (st : EmitterState) : Prop :=
  (st.events.map (fun p => p.1)).Nodup ∧
  (∀ p ∈ st.events, storeGet st.store p.2 ≠ [] ∧ p.2 < st.store.next ∧
    ∀ x ∈ storeGet st.store p.2, x.fn.isFunction = true) ∧
  StoreWF st.store

instance decidableStoreWF (s : Store) : Decidable (StoreWF s) := by
  unfold StoreWF
  infer_instance

instance decidableWF (st : EmitterState) : Decidable (WF st) := by
  unfold WF
  infer_instance

/-- How any registry activity relates the state it starts from to the
state it ends in: well-formedness is preserved and the store only
grows. -/
def Evol (st st' : EmitterState) : Prop :=
  WF st → WF st' ∧ storeLe st.store st'.store

/-- Evol for all four interpreter entry points at a given fuel. -/
def EvolPack (prog : Program) (fuel : Nat) : Prop :=
  (∀ st event args r i rem,
      Evol st (runEmitLoop prog fuel st event args r i rem).2.1) ∧
  (∀ st event args, Evol st (EventEmitter.emit prog fuel st event args).2.1) ∧
  (∀ st c, Evol st (runCmd prog fuel st c).2.1) ∧
  (∀ st cmds, Evol st (runCmds prog fuel st cmds).2.1)

/-- Registration helper for concrete scenarios: apply addListener and keep
the old state on error. -/
def reg (st : EmitterState) (e : EventName) (fn ctx : JSVal) (oc : Bool) :
    EmitterState :=
  match addListener st e fn ctx oc with
  | .ok s => s
  | .error _ => st

/-- A program in which function 0 observes the listener count of event x
and every other function does nothing. -/
def progObs : Program := fun id => if id = 0 then [Cmd.obsCount "x"] else []

/-- Two one-shot registrations of the same function under distinct truthy
contexts. -/
def stTwoOnce : EmitterState :=
  reg (reg emptyEmitter "x" (.fnv 0) (.obj 1) true) "x" (.fnv 0) (.obj 2) true

/-- One persistent listener on event a and one on the empty-string
event. -/
def stPairAB : EmitterState :=
  reg (reg emptyEmitter "a" (.fnv 0) .undefined false) "" (.fnv 1) .undefined false

/-- A single persistent listener on event x with the default context. -/
def stSingle : EmitterState :=
  reg emptyEmitter "x" (.fnv 0) .undefined false

/-- A single one-shot registration of function 0 on event x. -/
def stOneOnce : EmitterState :=
  reg emptyEmitter "x" (.fnv 0) .undefined true

/-- Two persistent listeners on event x: functions 1 and 2. -/
def stPairOn : EmitterState :=
  reg (reg emptyEmitter "x" (.fnv 1) .undefined false) "x" (.fnv 2) .undefined false

/-- A program in which function 1 removes function 2 from event x and every
other function does nothing. -/
def progOff : Program :=
  fun id => if id = 1 then [Cmd.offC "x" (.fnv 2) .undefined false] else []

/-- A program in which function 1 registers function 9 on event x and every
other function does nothing. -/
def progAdd : Program :=
  fun id => if id = 1 then [Cmd.onC "x" (.fnv 9) .undefined] else []

/-- A program in which function 1 registers function 9 as a one-shot
listener on event x and every other function does nothing. -/
def progAddOnce : Program :=
  fun id => if id = 1 then [Cmd.onceC "x" (.fnv 9) .undefined] else []

/-- A program in which function 1 throws (error code 42) and every other
function does nothing. -/
def progThrow : Program :=
  fun id => if id = 1 then [Cmd.throwC 42] else []

/-- One one-shot listener (function 0) followed by two persistent listeners
(functions 1 and 2) on event x. -/
def stTriple : EmitterState :=
  reg (reg (reg emptyEmitter "x" (.fnv 0) .undefined true)
    "x" (.fnv 1) .undefined false) "x" (.fnv 2) .undefined false

theorem JSVal.truthy_of_isFunction {v : JSVal} (h : v.isFunction = true) :
    v.truthy = true := by
  cases v <;> simp_all [JSVal.isFunction, JSVal.truthy]

theorem mapGet_mapSet_self {κ α : Type} [DecidableEq κ] (m : List (κ × α))
    (k : κ) (v : α) : mapGet (mapSet m k v) k = some v := by
  induction m with
  | nil => simp [mapSet, mapGet]
  | cons p rest ih =>
    by_cases h : p.1 = k
    · simp [mapSet, mapGet, h]
    · simp [mapSet, mapGet, h, ih]

theorem mapGet_mapSet_ne {κ α : Type} [DecidableEq κ] (m : List (κ × α))
    {k k' : κ} (v : α) (h : k' ≠ k) :
    mapGet (mapSet m k v) k' = mapGet m k' := by
  induction m with
  | nil => simp [mapSet, mapGet, Ne.symm h]
  | cons p rest ih =>
    by_cases hp : p.1 = k
    · subst hp
      simp [mapSet, mapGet, Ne.symm h]
    · simp [mapSet, mapGet, hp, ih]

theorem mapGet_mapDelete_self {κ α : Type} [DecidableEq κ] (m : List (κ × α))
    (k : κ) : mapGet (mapDelete m k) k = none := by
  induction m with
  | nil => simp [mapDelete, mapGet]
  | cons p rest ih =>
    by_cases h : p.1 = k
    · simpa [mapDelete, h] using ih
    · simpa [mapDelete, mapGet, h] using ih

theorem mapGet_mapDelete_ne {κ α : Type} [DecidableEq κ] (m : List (κ × α))
    {k k' : κ} (h : k' ≠ k) : mapGet (mapDelete m k) k' = mapGet m k' := by
  induction m with
  | nil => simp [mapDelete, mapGet]
  | cons p rest ih =>
    by_cases hp : p.1 = k
    · subst hp
      simpa [mapDelete, mapGet, Ne.symm h] using ih
    · simp [mapDelete, mapGet, hp, ih]

theorem mapGet_mem {κ α : Type} [DecidableEq κ] {m : List (κ × α)} {k : κ}
    {v : α} (h : mapGet m k = some v) : (k, v) ∈ m := by
  induction m with
  | nil => simp [mapGet] at h
  | cons p rest ih =>
    obtain ⟨pk, pv⟩ := p
    by_cases hp : pk = k
    · subst hp
      simp [mapGet] at h
      subst h
      exact List.mem_cons_self _ _
    · simp [mapGet, hp] at h
      exact List.mem_cons_of_mem _ (ih h)

theorem storeGet_storeSet_self (s : Store) (r : Nat) (v : List EE) :
    storeGet (storeSet s r v) r = v := by
  simp [storeGet, storeSet, mapGet_mapSet_self]

theorem storeGet_storeSet_ne (s : Store) {r r' : Nat} (v : List EE)
    (h : r' ≠ r) : storeGet (storeSet s r v) r' = storeGet s r' := by
  simp [storeGet, storeSet, mapGet_mapSet_ne _ _ h]

theorem storeGet_alloc_self (s : Store) (v : List EE) :
    storeGet (alloc s v).2 (alloc s v).1 = v := by
  simp [storeGet, alloc, mapGet_mapSet_self]

theorem storeGet_alloc_ne (s : Store) (v : List EE) {r : Nat}
    (h : r ≠ s.next) : storeGet (alloc s v).2 r = storeGet s r := by
  simp [storeGet, alloc, mapGet_mapSet_ne _ _ h]

theorem storeGet_of_not_lt {s : Store} (hwf : StoreWF s) {r : Nat}
    (h : ¬ r < s.next) : storeGet s r = [] := by
  unfold storeGet
  cases hm : mapGet s.arrs r with
  | none => rfl
  | some v => exact absurd (hwf _ (mapGet_mem hm)) h

theorem mapGet_eq_none_iff {κ α : Type} [DecidableEq κ] (m : List (κ × α))
    (k : κ) : mapGet m k = none ↔ k ∉ m.map (fun p => p.1) := by
  induction m with
  | nil => simp [mapGet]
  | cons p rest ih =>
    by_cases h : p.1 = k
    · simp [mapGet, h]
    · simp [mapGet, h, ih, Ne.symm h]

theorem listenerCount_eq (st : EmitterState) (e : EventName) :
    EventEmitter.listenerCount st e = (getListeners st e).length := by
  unfold EventEmitter.listenerCount getListeners
  cases mapGet st.events e <;> simp

theorem addListener_ok (st : EmitterState) (e : EventName) {fn : JSVal}
    (ctx : JSVal) (oc : Bool) (hfn : fn.isFunction = true) :
    ∃ st', addListener st e fn ctx oc = .ok st' ∧
      getListeners st' e = getListeners st e ++
        [⟨fn, if ctx.truthy then ctx else .emitterRef, oc⟩] := by
  unfold addListener
  rw [hfn]
  simp only [Bool.true_eq_false, if_false]
  by_cases h : mapHas st.events e = false
  · rw [if_pos h]
    refine ⟨_, rfl, ?_⟩
    unfold mapHas at h
    cases hm : mapGet st.events e with
    | some r => rw [hm] at h; simp at h
    | none =>
      simp [getListeners, mapGet_mapSet_self, alloc, hm,
        storeGet, mapGet_mapSet_self]
  · rw [if_neg h]
    unfold mapHas at h
    rw [Bool.not_eq_false, Option.isSome_iff_exists] at h
    obtain ⟨r, hr⟩ := h
    rw [hr]
    refine ⟨_, rfl, ?_⟩
    simp [getListeners, hr, storeGet_storeSet_self]

theorem removeListener_absent (st : EmitterState) (e : EventName)
    (fn ctx : JSVal) (oc : Bool) (h : mapGet st.events e = none) :
    EventEmitter.removeListener st e fn ctx oc = st := by
  unfold EventEmitter.removeListener
  rw [h]

theorem getListeners_clearEvent_self (st : EmitterState) (e : EventName) :
    getListeners (clearEvent st e) e = [] := by
  simp [getListeners, clearEvent, mapGet_mapDelete_self]

theorem getListeners_clearEvent_ne (st : EmitterState) {e e' : EventName}
    (h : e' ≠ e) : getListeners (clearEvent st e) e' = getListeners st e' := by
  simp [getListeners, clearEvent, mapGet_mapDelete_ne _ h]

theorem removeListener_getListeners (st : EmitterState) (e : EventName)
    {fn : JSVal} (ctx : JSVal) (oc : Bool) (hfn : fn.truthy = true) :
    getListeners (EventEmitter.removeListener st e fn ctx oc) e =
      (getListeners st e).filter (fun l => keepB l fn ctx oc) := by
  unfold EventEmitter.removeListener
  cases hm : mapGet st.events e with
  | none => simp [getListeners, hm]
  | some r =>
    rw [hfn]
    simp only [Bool.true_eq_false, if_false]
    by_cases hk : ((storeGet st.store r).filter (fun l => keepB l fn ctx oc)).isEmpty
    · rw [if_pos hk]
      rw [List.isEmpty_iff] at hk
      rw [getListeners_clearEvent_self]
      simp [getListeners, hm, hk]
    · rw [if_neg hk]
      simp [getListeners, hm, mapGet_mapSet_self, alloc, storeGet,
        mapGet_mapSet_self]

theorem mem_mapSet {κ α : Type} [DecidableEq κ] {m : List (κ × α)} {k : κ}
    {v : α} {q : κ × α} (h : q ∈ mapSet m k v) : q = (k, v) ∨ q ∈ m := by
  induction m with
  | nil => simpa [mapSet] using h
  | cons p rest ih =>
    by_cases hp : p.1 = k
    · rw [mapSet, if_pos hp] at h
      rcases List.mem_cons.mp h with h1 | h1
      · exact Or.inl h1
      · exact Or.inr (List.mem_cons_of_mem _ h1)
    · rw [mapSet, if_neg hp] at h
      rcases List.mem_cons.mp h with h1 | h1
      · exact Or.inr (h1 ▸ List.mem_cons_self _ _)
      · rcases ih h1 with h2 | h2
        · exact Or.inl h2
        · exact Or.inr (List.mem_cons_of_mem _ h2)

theorem mem_mapDelete {κ α : Type} [DecidableEq κ] {m : List (κ × α)} {k : κ}
    {q : κ × α} (h : q ∈ mapDelete m k) : q ∈ m := by
  induction m with
  | nil => simp [mapDelete] at h
  | cons p rest ih =>
    by_cases hp : p.1 = k
    · rw [mapDelete, if_pos hp] at h
      exact List.mem_cons_of_mem _ (ih h)
    · rw [mapDelete, if_neg hp] at h
      rcases List.mem_cons.mp h with h1 | h1
      · exact h1 ▸ List.mem_cons_self _ _
      · exact List.mem_cons_of_mem _ (ih h1)

theorem map_fst_mapDelete {κ α : Type} [DecidableEq κ] (m : List (κ × α))
    (k : κ) : (mapDelete m k).map (fun p => p.1) =
      (m.map (fun p => p.1)).filter (fun x => x ≠ k) := by
  induction m with
  | nil => simp [mapDelete]
  | cons p rest ih =>
    by_cases hp : p.1 = k
    · simp [mapDelete, hp, ih]
    · simp [mapDelete, hp, ih]

theorem map_fst_mapSet_present {κ α : Type} [DecidableEq κ]
    {m : List (κ × α)} {k : κ} (v : α) (h : (mapGet m k).isSome = true) :
    (mapSet m k v).map (fun p => p.1) = m.map (fun p => p.1) := by
  induction m with
  | nil => simp [mapGet] at h
  | cons p rest ih =>
    by_cases hp : p.1 = k
    · simp [mapSet, hp]
    · rw [mapGet, if_neg hp] at h
      simp [mapSet, hp, ih h]

theorem map_fst_mapSet_absent {κ α : Type} [DecidableEq κ]
    {m : List (κ × α)} {k : κ} (v : α) (h : mapGet m k = none) :
    (mapSet m k v).map (fun p => p.1) = m.map (fun p => p.1) ++ [k] := by
  induction m with
  | nil => simp [mapSet]
  | cons p rest ih =>
    by_cases hp : p.1 = k
    · rw [mapGet, if_pos hp] at h
      simp at h
    · rw [mapGet, if_neg hp] at h
      simp [mapSet, hp, ih h]

theorem storeLe_refl (s : Store) : storeLe s s :=
  ⟨Nat.le_refl _, fun _ => List.prefix_refl _⟩

theorem storeLe_trans {s1 s2 s3 : Store} (h1 : storeLe s1 s2)
    (h2 : storeLe s2 s3) : storeLe s1 s3 :=
  ⟨Nat.le_trans h1.1 h2.1, fun r => (h1.2 r).trans (h2.2 r)⟩

theorem storeLe_push (s : Store) (r : Nat) (v : List EE) :
    storeLe s (storeSet s r (storeGet s r ++ v)) := by
  refine ⟨Nat.le_refl _, fun r' => ?_⟩
  by_cases h : r' = r
  · subst h
    rw [storeGet_storeSet_self]
    exact ⟨v, rfl⟩
  · rw [storeGet_storeSet_ne _ _ h]

theorem storeLe_alloc {s : Store} (hwf : StoreWF s) (v : List EE) :
    storeLe s (alloc s v).2 := by
  refine ⟨Nat.le_succ _, fun r' => ?_⟩
  by_cases h : r' = s.next
  · subst h
    rw [storeGet_of_not_lt hwf (Nat.lt_irrefl _)]
    exact List.nil_prefix
  · rw [storeGet_alloc_ne _ _ h]

theorem StoreWF_storeSet {s : Store} (hwf : StoreWF s) {r : Nat}
    (hr : r < s.next) (v : List EE) : StoreWF (storeSet s r v) := by
  intro q hq
  rcases mem_mapSet hq with h | h
  · subst h
    exact hr
  · exact hwf _ h

theorem StoreWF_alloc {s : Store} (hwf : StoreWF s) (v : List EE) :
    StoreWF (alloc s v).2 := by
  intro q hq
  rcases mem_mapSet hq with h | h
  · subst h
    exact Nat.lt_succ_self _
  · exact Nat.lt_succ_of_lt (hwf _ h)

theorem storeGet_alloc_next (s : Store) (v : List EE) :
    storeGet (alloc s v).2 s.next = v := by
  simp [storeGet, alloc, mapGet_mapSet_self]

theorem evol_refl (st : EmitterState) : Evol st st :=
  fun h => ⟨h, storeLe_refl _⟩

theorem evol_trans {s1 s2 s3 : EmitterState} (h1 : Evol s1 s2)
    (h2 : Evol s2 s3) : Evol s1 s3 := by
  intro hwf
  obtain ⟨hwf2, hle2⟩ := h1 hwf
  obtain ⟨hwf3, hle3⟩ := h2 hwf2
  exact ⟨hwf3, storeLe_trans hle2 hle3⟩

theorem evol_clearEvent (st : EmitterState) (e : EventName) :
    Evol st (clearEvent st e) := by
  intro hwf
  refine ⟨⟨?_, ?_, hwf.2.2⟩, storeLe_refl _⟩
  · rw [clearEvent, map_fst_mapDelete]
    exact hwf.1.filter _
  · intro p hp
    exact hwf.2.1 p (mem_mapDelete hp)

theorem alloc_fst (s : Store) (v : List EE) : (alloc s v).1 = s.next := rfl

theorem alloc_next (s : Store) (v : List EE) :
    (alloc s v).2.next = s.next + 1 := rfl

theorem evol_removeListener (st : EmitterState) (e : EventName)
    (fn ctx : JSVal) (oc : Bool) :
    Evol st (EventEmitter.removeListener st e fn ctx oc) := by
  unfold EventEmitter.removeListener
  cases hm : mapGet st.events e with
  | none => exact evol_refl st
  | some r =>
    dsimp only
    by_cases hf : fn.truthy = false
    · rw [if_pos hf]
      exact evol_clearEvent st e
    · rw [if_neg hf]
      by_cases hk : ((storeGet st.store r).filter (fun l => keepB l fn ctx oc)).isEmpty
      · rw [if_pos hk]
        exact evol_clearEvent st e
      · rw [if_neg hk]
        intro hwf
        have hmem : (e, r) ∈ st.events := mapGet_mem hm
        have hent := hwf.2.1 _ hmem
        refine ⟨⟨?_, ?_, StoreWF_alloc hwf.2.2 _⟩, storeLe_alloc hwf.2.2 _⟩
        · rw [map_fst_mapSet_present _ (by rw [hm]; rfl)]
          exact hwf.1
        · intro p hp
          rcases mem_mapSet hp with h | h
          · subst h
            simp only [alloc_fst, alloc_next]
            rw [storeGet_alloc_next]
            refine ⟨fun hemp => hk (by simp [hemp]), Nat.lt_succ_self _, ?_⟩
            intro x hx
            exact hent.2.2 x (List.mem_of_mem_filter hx)
          · have hold := hwf.2.1 _ h
            have hne : p.2 ≠ st.store.next := Nat.ne_of_lt hold.2.1
            rw [storeGet_alloc_ne _ _ hne, alloc_next]
            exact ⟨hold.1, Nat.lt_succ_of_lt hold.2.1, hold.2.2⟩

theorem evol_addListener {st st' : EmitterState} {e : EventName}
    {fn ctx : JSVal} {oc : Bool}
    (h : addListener st e fn ctx oc = .ok st') : Evol st st' := by
  unfold addListener at h
  by_cases hf : fn.isFunction = false
  · rw [if_pos hf] at h
    simp at h
  · rw [if_neg hf] at h
    rw [Bool.not_eq_false] at hf
    by_cases hh : mapHas st.events e = false
    · rw [if_pos hh] at h
      simp only [Except.ok.injEq] at h
      subst h
      unfold mapHas at hh
      have hm : mapGet st.events e = none := by
        cases hq : mapGet st.events e with
        | none => rfl
        | some r => rw [hq] at hh; simp at hh
      intro hwf
      refine ⟨⟨?_, ?_, StoreWF_alloc hwf.2.2 _⟩, storeLe_alloc hwf.2.2 _⟩
      · simp only [alloc_fst]
        rw [map_fst_mapSet_absent _ hm]
        simp only [List.nodup_append, List.nodup_cons, List.not_mem_nil,
          not_false_iff, List.nodup_nil, and_true, true_and]
        refine ⟨hwf.1, ?_⟩
        intro a ha hb
        simp at hb
        subst hb
        exact (mapGet_eq_none_iff _ _).mp hm ha
      · intro p hp
        rcases mem_mapSet hp with h | h
        · subst h
          simp only [alloc_fst, alloc_next]
          rw [storeGet_alloc_next]
          refine ⟨by simp, Nat.lt_succ_self _, ?_⟩
          intro x hx
          simp at hx
          subst hx
          exact hf
        · have hold := hwf.2.1 _ h
          have hne : p.2 ≠ st.store.next := Nat.ne_of_lt hold.2.1
          rw [storeGet_alloc_ne _ _ hne, alloc_next]
          exact ⟨hold.1, Nat.lt_succ_of_lt hold.2.1, hold.2.2⟩
    · rw [if_neg hh] at h
      cases hm : mapGet st.events e with
      | none => rw [hm] at h; unfold mapHas at hh; rw [hm] at hh; simp at hh
      | some r =>
        rw [hm] at h
        simp only [Except.ok.injEq] at h
        subst h
        intro hwf
        have hmem : (e, r) ∈ st.events := mapGet_mem hm
        have hr : r < st.store.next := (hwf.2.1 _ hmem).2.1
        refine ⟨⟨hwf.1, ?_, StoreWF_storeSet hwf.2.2 hr _⟩, storeLe_push _ _ _⟩
        intro p hp
        by_cases hpr : p.2 = r
        · rw [hpr]
          rw [storeGet_storeSet_self]
          have hold := hwf.2.1 _ hp
          rw [hpr] at hold
          refine ⟨by simp, hold.2.1, ?_⟩
          intro x hx
          rcases List.mem_append.mp hx with h1 | h1
          · exact hold.2.2 x h1
          · simp at h1
            subst h1
            exact hf
        · rw [storeGet_storeSet_ne _ _ hpr]
          exact hwf.2.1 _ hp

theorem evol_removeAllListeners (st : EmitterState) (ev : Option EventName) :
    Evol st (EventEmitter.removeAllListeners st ev) := by
  unfold EventEmitter.removeAllListeners
  cases ev with
  | none =>
    intro hwf
    exact ⟨⟨by simp, by simp, hwf.2.2⟩, storeLe_refl _⟩
  | some e =>
    dsimp only
    by_cases he : e ≠ ""
    · rw [if_pos he]
      by_cases hh : mapHas st.events e
      · rw [if_pos hh]
        exact evol_clearEvent st e
      · rw [if_neg hh]
        exact evol_refl st
    · rw [if_neg he]
      intro hwf
      exact ⟨⟨by simp, by simp, hwf.2.2⟩, storeLe_refl _⟩

theorem evol_onceRemove (st : EmitterState) (event : EventName) (x : EE) :
    Evol st (if x.once then
      EventEmitter.removeListener st event x.fn .undefined true else st) := by
  by_cases h : x.once
  · rw [if_pos h]
    exact evol_removeListener st event x.fn .undefined true
  · rw [if_neg h]
    exact evol_refl st

theorem evolPack_all (prog : Program) : ∀ fuel, EvolPack prog fuel := by
  intro fuel
  induction fuel with
  | zero =>
    have hloop : ∀ st event args r i rem,
        Evol st (runEmitLoop prog 0 st event args r i rem).2.1 := by
      intro st event args r i rem
      cases rem with
      | zero =>
        simp only [runEmitLoop]
        exact evol_refl st
      | succ rem' =>
        simp only [runEmitLoop]
        exact evol_refl st
    have hemit : ∀ st event args,
        Evol st (EventEmitter.emit prog 0 st event args).2.1 := by
      intro st event args
      unfold EventEmitter.emit
      cases hm : mapGet st.events event with
      | none => exact evol_refl st
      | some r =>
        dsimp only
        by_cases hl : (storeGet st.store r).length = 0
        · rw [if_pos hl]
          exact evol_refl st
        · rw [if_neg hl]
          exact evol_refl st
    have hcmd : ∀ st c, Evol st (runCmd prog 0 st c).2.1 := by
      intro st c
      cases c with
      | onC e fn ctx =>
        unfold runCmd
        cases ha : addListener st e fn ctx false with
        | error err => exact evol_refl st
        | ok st' => exact evol_addListener ha
      | onceC e fn ctx =>
        unfold runCmd
        cases ha : addListener st e fn ctx true with
        | error err => exact evol_refl st
        | ok st' => exact evol_addListener ha
      | offC e fn ctx oc =>
        unfold runCmd
        exact evol_removeListener st e fn ctx oc
      | removeAllC e =>
        unfold runCmd
        exact evol_removeAllListeners st e
      | obsCount e =>
        unfold runCmd
        exact evol_refl st
      | throwC code =>
        unfold runCmd
        exact evol_refl st
      | emitC e args =>
        unfold runCmd
        cases ha : (EventEmitter.emit prog 0 st e args).1 with
        | ok b =>
          have := hemit st e args
          dsimp only
          rw [ha]
          exact this
        | error err =>
          have := hemit st e args
          dsimp only
          rw [ha]
          exact this
    have hcmds : ∀ st cmds, Evol st (runCmds prog 0 st cmds).2.1 := by
      intro st cmds
      induction cmds generalizing st with
      | nil =>
        simp only [runCmds]
        exact evol_refl st
      | cons c cs ihcs =>
        simp only [runCmds]
        cases ha : (runCmd prog 0 st c).1 with
        | some err =>
          have := hcmd st c
          exact this
        | none =>
          exact evol_trans (hcmd st c) (ihcs _)
    exact ⟨hloop, hemit, hcmd, hcmds⟩
  | succ fuel ih =>
    have hloop : ∀ st event args r i rem,
        Evol st (runEmitLoop prog (fuel + 1) st event args r i rem).2.1 := by
      intro st event args r i rem
      induction rem generalizing st i with
      | zero =>
        simp only [runEmitLoop]
        exact evol_refl st
      | succ rem' ihrem =>
        simp only [runEmitLoop]
        cases hx : (storeGet st.store r)[i]? with
        | none => exact evol_refl st
        | some x =>
          dsimp only
          have h1 := evol_onceRemove st event x
          have h2 := ih.2.2.2 (if x.once then
            EventEmitter.removeListener st event x.fn .undefined true else st)
            (bodyOf prog x.fn)
          cases ha : (runCmds prog fuel (if x.once then
              EventEmitter.removeListener st event x.fn .undefined true else st)
              (bodyOf prog x.fn)).1 with
          | some err =>
            exact evol_trans h1 h2
          | none =>
            exact evol_trans (evol_trans h1 h2) (ihrem _ _)
    have hemit : ∀ st event args,
        Evol st (EventEmitter.emit prog (fuel + 1) st event args).2.1 := by
      intro st event args
      unfold EventEmitter.emit
      cases hm : mapGet st.events event with
      | none => exact evol_refl st
      | some r =>
        dsimp only
        by_cases hl : (storeGet st.store r).length = 0
        · rw [if_pos hl]
          exact evol_refl st
        · rw [if_neg hl]
          exact ih.1 st event args r 0 (storeGet st.store r).length
    have hcmd : ∀ st c, Evol st (runCmd prog (fuel + 1) st c).2.1 := by
      intro st c
      cases c with
      | onC e fn ctx =>
        unfold runCmd
        cases ha : addListener st e fn ctx false with
        | error err => exact evol_refl st
        | ok st' => exact evol_addListener ha
      | onceC e fn ctx =>
        unfold runCmd
        cases ha : addListener st e fn ctx true with
        | error err => exact evol_refl st
        | ok st' => exact evol_addListener ha
      | offC e fn ctx oc =>
        unfold runCmd
        exact evol_removeListener st e fn ctx oc
      | removeAllC e =>
        unfold runCmd
        exact evol_removeAllListeners st e
      | obsCount e =>
        unfold runCmd
        exact evol_refl st
      | throwC code =>
        unfold runCmd
        exact evol_refl st
      | emitC e args =>
        unfold runCmd
        cases ha : (EventEmitter.emit prog (fuel + 1) st e args).1 with
        | ok b =>
          have := hemit st e args
          dsimp only
          rw [ha]
          exact this
        | error err =>
          have := hemit st e args
          dsimp only
          rw [ha]
          exact this
    have hcmds : ∀ st cmds, Evol st (runCmds prog (fuel + 1) st cmds).2.1 := by
      intro st cmds
      induction cmds generalizing st with
      | nil =>
        simp only [runCmds]
        exact evol_refl st
      | cons c cs ihcs =>
        simp only [runCmds]
        cases ha : (runCmd prog (fuel + 1) st c).1 with
        | some err => exact hcmd st c
        | none => exact evol_trans (hcmd st c) (ihcs _)
    exact ⟨hloop, hemit, hcmd, hcmds⟩

theorem evol_runCmds (prog : Program) (fuel : Nat) (st : EmitterState)
    (cmds : List Cmd) : Evol st (runCmds prog fuel st cmds).2.1 :=
  (evolPack_all prog fuel).2.2.2 st cmds

theorem evol_emit (prog : Program) (fuel : Nat) (st : EmitterState)
    (event : EventName) (args : List JSVal) :
    Evol st (EventEmitter.emit prog fuel st event args).2.1 :=
  (evolPack_all prog fuel).2.1 st event args

theorem callEntries_append (t1 t2 : List TraceEntry) :
    callEntries (t1 ++ t2) = callEntries t1 ++ callEntries t2 := by
  simp [callEntries]

theorem callEntries_cons_call (fn ctx : JSVal) (args : List JSVal)
    (t : List TraceEntry) :
    callEntries (.call fn ctx args :: t) = .call fn ctx args :: callEntries t := by
  simp [callEntries]

theorem callEntries_cons_obs (e : EventName) (n : Nat) (t : List TraceEntry) :
    callEntries (.obs e n :: t) = callEntries t := by
  simp [callEntries]

theorem prefix_getElem_some {l l' : List EE} (h : l <+: l') {n : Nat} {a : EE}
    (ha : l[n]? = some a) : l'[n]? = some a := by
  obtain ⟨t, rfl⟩ := h
  have hn : n < l.length := by
    rcases List.getElem?_eq_some.mp ha with ⟨hlt, _⟩
    exact hlt
  rw [List.getElem?_append, if_pos hn]
  exact ha

theorem runCmd_tame (prog : Program) {c : Cmd} (h : tameCmd c = true)
    (fuel fuel' : Nat) (st : EmitterState) :
    runCmd prog fuel st c = runCmd prog fuel' st c ∧
    (runCmd prog fuel st c).1 = none ∧
    callEntries (runCmd prog fuel st c).2.2 = [] := by
  cases c with
  | onC e fn ctx =>
    have hf : fn.isFunction = true := by simpa [tameCmd] using h
    obtain ⟨st', hok, _⟩ := addListener_ok st e ctx false hf
    unfold runCmd
    rw [hok]
    exact ⟨rfl, rfl, rfl⟩
  | onceC e fn ctx =>
    have hf : fn.isFunction = true := by simpa [tameCmd] using h
    obtain ⟨st', hok, _⟩ := addListener_ok st e ctx true hf
    unfold runCmd
    rw [hok]
    exact ⟨rfl, rfl, rfl⟩
  | offC e fn ctx oc =>
    unfold runCmd
    exact ⟨rfl, rfl, rfl⟩
  | removeAllC e =>
    unfold runCmd
    exact ⟨rfl, rfl, rfl⟩
  | obsCount e =>
    unfold runCmd
    exact ⟨rfl, rfl, by simp [callEntries]⟩
  | emitC e args => simp [tameCmd] at h
  | throwC code => simp [tameCmd] at h

theorem runCmds_tame (prog : Program) :
    ∀ (cmds : List Cmd) (fuel fuel' : Nat) (st : EmitterState),
    (∀ c ∈ cmds, tameCmd c = true) →
    runCmds prog fuel st cmds = runCmds prog fuel' st cmds ∧
    (runCmds prog fuel st cmds).1 = none ∧
    callEntries (runCmds prog fuel st cmds).2.2 = [] := by
  intro cmds
  induction cmds with
  | nil =>
    intro fuel fuel' st h
    refine ⟨?_, ?_, ?_⟩ <;> simp [runCmds, callEntries]
  | cons c cs ih =>
    intro fuel fuel' st h
    have hc := runCmd_tame prog (h c (List.mem_cons_self _ _)) fuel fuel' st
    have hcs := ih fuel fuel' (runCmd prog fuel st c).2.1
      (fun d hd => h d (List.mem_cons_of_mem _ hd))
    simp only [runCmds]
    rw [← hc.1, hc.2.1, ← hcs.1]
    refine ⟨rfl, hcs.2.1, ?_⟩
    rw [callEntries_append, hc.2.2, hcs.2.2]
    rfl

theorem emitLoop_tame (prog : Program) (event : EventName) (args : List JSVal)
    (r : Nat) (fuel : Nat) :
    ∀ (sub : List EE) (st : EmitterState) (i rem2 : Nat),
    WF st →
    (∀ j, (hj : j < sub.length) →
      (storeGet st.store r)[i + j]? = some (sub.get ⟨j, hj⟩)) →
    (∀ x ∈ sub, ∀ c ∈ bodyOf prog x.fn, tameCmd c = true) →
    ∃ tr0,
      callEntries tr0 = sub.map (fun x => TraceEntry.call x.fn x.context args) ∧
      runEmitLoop prog (fuel + 1) st event args r i (sub.length + rem2) =
        ((runEmitLoop prog (fuel + 1) (sub.foldl (listenerStep prog event) st)
            event args r (i + sub.length) rem2).1,
         (runEmitLoop prog (fuel + 1) (sub.foldl (listenerStep prog event) st)
            event args r (i + sub.length) rem2).2.1,
         tr0 ++ (runEmitLoop prog (fuel + 1) (sub.foldl (listenerStep prog event) st)
            event args r (i + sub.length) rem2).2.2) := by
  intro sub
  induction sub with
  | nil =>
    intro st i rem2 hwf hread htame
    refine ⟨[], rfl, ?_⟩
    simp
  | cons x sub' ihsub =>
    intro st i rem2 hwf hread htame
    have hx : (storeGet st.store r)[i]? = some x := by
      have h0 := hread 0 (by simp)
      simpa using h0
    have htx : ∀ c ∈ bodyOf prog x.fn, tameCmd c = true :=
      htame x (List.mem_cons_self _ _)
    have hbody := runCmds_tame prog (bodyOf prog x.fn) fuel 0
      (if x.once then EventEmitter.removeListener st event x.fn .undefined true
        else st) htx
    have hstep : (runCmds prog fuel
        (if x.once then EventEmitter.removeListener st event x.fn .undefined true
          else st) (bodyOf prog x.fn)).2.1 = listenerStep prog event st x := by
      rw [hbody.1]
      rfl
    have hevol : Evol st (listenerStep prog event st x) := by
      rw [← hstep]
      exact evol_trans (evol_onceRemove st event x)
        (evol_runCmds prog fuel _ (bodyOf prog x.fn))
    obtain ⟨hwfA, hleA⟩ := hevol hwf
    have hreads : ∀ j, (hj : j < sub'.length) →
        (storeGet (listenerStep prog event st x).store r)[(i + 1) + j]? =
          some (sub'.get ⟨j, hj⟩) := by
      intro j hj
      have hj1 : j + 1 < (x :: sub').length := by
        simp
        omega
      have h1 := hread (j + 1) hj1
      rw [show i + (j + 1) = (i + 1) + j by omega] at h1
      exact prefix_getElem_some (hleA.2 r) h1
    obtain ⟨tr0', hcalls', heq'⟩ := ihsub (listenerStep prog event st x) (i + 1)
      rem2 hwfA hreads (fun y hy => htame y (List.mem_cons_of_mem _ hy))
    refine ⟨TraceEntry.call x.fn x.context args ::
      ((runCmds prog fuel
        (if x.once then EventEmitter.removeListener st event x.fn .undefined true
          else st) (bodyOf prog x.fn)).2.2 ++ tr0'), ?_, ?_⟩
    · rw [callEntries_cons_call, callEntries_append, hbody.2.2, hcalls']
      simp
    · have hlen : (x :: sub').length + rem2 = (sub'.length + rem2) + 1 := by
        simp
        omega
      rw [hlen]
      simp only [runEmitLoop]
      rw [hx]
      simp only [hbody.2.1, hstep, heq', List.foldl_cons]
      rw [show i + (x :: sub').length = (i + 1) + sub'.length by simp; omega]
      simp [List.append_assoc]
theorem emit_unfold (prog : Program) (fuel : Nat) (st : EmitterState)
    (event : EventName) (args : List JSVal) {r : Nat}
    (hm : mapGet st.events event = some r)
    (hlen : ¬ (storeGet st.store r).length = 0) :
    EventEmitter.emit prog (fuel + 1) st event args =
      ((match (runEmitLoop prog fuel st event args r 0
          (storeGet st.store r).length).1 with
        | none => Except.ok true
        | some err => Except.error err),
       (runEmitLoop prog fuel st event args r 0
          (storeGet st.store r).length).2.1,
       (runEmitLoop prog fuel st event args r 0
          (storeGet st.store r).length).2.2) := by
  rw [EventEmitter.emit.eq_def, hm]
  dsimp only
  rw [if_neg hlen]

theorem emit_no_listeners (prog : Program) (fuel : Nat) (st : EmitterState)
    (event : EventName) (args : List JSVal)
    (hl : getListeners st event = []) :
    EventEmitter.emit prog fuel st event args = (.ok false, st, []) := by
  cases hm : mapGet st.events event with
  | none =>
    rw [EventEmitter.emit.eq_def, hm]
    cases fuel <;> rfl
  | some r =>
    have hstore : storeGet st.store r = [] := by
      rw [getListeners, hm] at hl
      exact hl
    rw [EventEmitter.emit.eq_def, hm]
    cases fuel with
    | zero =>
      dsimp only
      rw [if_pos (by rw [hstore]; rfl)]
    | succ fuel' =>
      dsimp only
      rw [if_pos (by rw [hstore]; rfl)]

theorem emit_tame (prog : Program) (fuel : Nat) (st : EmitterState)
    (event : EventName) (args : List JSVal) (l : List EE)
    (hwf : WF st) (hl : getListeners st event = l) (hne : l ≠ [])
    (htame : ∀ x ∈ l, ∀ c ∈ bodyOf prog x.fn, tameCmd c = true) :
    (EventEmitter.emit prog (fuel + 2) st event args).1 = .ok true ∧
    (EventEmitter.emit prog (fuel + 2) st event args).2.1 =
      l.foldl (listenerStep prog event) st ∧
    callEntries (EventEmitter.emit prog (fuel + 2) st event args).2.2 =
      l.map (fun x => TraceEntry.call x.fn x.context args) := by
  cases hm : mapGet st.events event with
  | none =>
    rw [getListeners, hm] at hl
    exact absurd hl.symm hne
  | some r =>
    have hstore : storeGet st.store r = l := by
      rw [getListeners, hm] at hl
      exact hl
    have hlen : ¬ (storeGet st.store r).length = 0 := by
      rw [hstore]
      simpa using hne
    have hreads : ∀ j, (hj : j < l.length) →
        (storeGet st.store r)[0 + j]? = some (l.get ⟨j, hj⟩) := by
      intro j hj
      rw [hstore, Nat.zero_add, List.getElem?_eq_getElem hj]
      simp
    obtain ⟨tr0, hcalls, heq⟩ :=
      emitLoop_tame prog event args r fuel l st 0 0 hwf hreads htame
    simp only [Nat.add_zero, Nat.zero_add] at heq
    have hcont : runEmitLoop prog (fuel + 1)
        (l.foldl (listenerStep prog event) st) event args r l.length 0 =
        (none, l.foldl (listenerStep prog event) st, []) := by
      simp only [runEmitLoop]
    rw [hcont] at heq
    have hrw := emit_unfold prog (fuel + 1) st event args hm hlen
    rw [hstore] at hrw
    rw [show fuel + 1 + 1 = fuel + 2 from rfl] at hrw
    rw [hrw, heq]
    simp [hcalls]

theorem listenerStep_empty_body (prog : Program) (event : EventName)
    (st : EmitterState) (x : EE) (hb : bodyOf prog x.fn = []) :
    listenerStep prog event st x =
      if x.once then EventEmitter.removeListener st event x.fn .undefined true
      else st := by
  unfold listenerStep
  rw [hb]
  simp [runCmds]

theorem keepB_once_filter (y : EE) (fn : JSVal) :
    keepB y fn .undefined true = (decide (y.fn ≠ fn) || !y.once) := by
  simp [keepB, JSVal.truthy]

theorem survives_nil (y : EE) : survives [] y = true := by
  simp [survives]

theorem survives_cons (z : EE) (l : List EE) (y : EE) :
    survives (z :: l) y =
      ((decide (y.fn ≠ z.fn) || !y.once || !z.once) && survives l y) := by
  simp only [survives, List.all_cons]
  by_cases hf : z.fn = y.fn
  · by_cases hy : y.once <;> by_cases hz : z.once <;> simp [hy, hz, hf]
  · have hf' : y.fn ≠ z.fn := fun h => hf (Eq.symm h)
    by_cases hy : y.once <;> by_cases hz : z.once <;> simp [hy, hz, hf, hf']

theorem survives_self_false {l : List EE} {y : EE} (hm : y ∈ l)
    (hy : y.once = true) : survives l y = false := by
  simp only [survives, hy, Bool.not_true, Bool.false_or]
  rw [List.all_eq_false]
  exact ⟨y, hm, by simp [hy]⟩

theorem countP_add_countP_not (l : List EE) (p : EE → Bool) :
    l.countP p + l.countP (fun a => !p a) = l.length := by
  induction l with
  | nil => simp
  | cons a t ih =>
    by_cases h : p a <;> simp [List.countP_cons, h] <;> omega

theorem foldl_empty_bodies (prog : Program) (e : EventName) :
    ∀ (l : List EE) (st : EmitterState),
    (∀ x ∈ l, bodyOf prog x.fn = []) →
    (∀ x ∈ l, x.fn.isFunction = true) →
    getListeners (l.foldl (listenerStep prog e) st) e =
      (getListeners st e).filter (fun y => survives l y) := by
  intro l
  induction l with
  | nil =>
    intro st _ _
    simp [survives_nil]
  | cons z l' ih =>
    intro st hb hf
    rw [List.foldl_cons,
      listenerStep_empty_body prog e st z (hb z (List.mem_cons_self _ _))]
    by_cases hz : z.once
    · rw [if_pos hz]
      rw [ih _ (fun x hx => hb x (List.mem_cons_of_mem _ hx))
        (fun x hx => hf x (List.mem_cons_of_mem _ hx))]
      rw [removeListener_getListeners st e .undefined true
        (JSVal.truthy_of_isFunction (hf z (List.mem_cons_self _ _)))]
      rw [List.filter_filter]
      apply List.filter_congr
      intro y hy
      rw [survives_cons, keepB_once_filter]
      by_cases h1 : y.once <;> by_cases h2 : y.fn = z.fn <;>
        simp [h1, h2, hz]
    · rw [if_neg hz]
      rw [ih _ (fun x hx => hb x (List.mem_cons_of_mem _ hx))
        (fun x hx => hf x (List.mem_cons_of_mem _ hx))]
      apply List.filter_congr
      intro y hy
      rw [survives_cons]
      simp [hz]

/-- C1: for every event with n listeners, none of which throw or re-enter
the registry, emit returns true and invokes exactly those n callbacks in
registration order, each with the arguments forwarded and its bound
context as receiver; with zero listeners, emit returns false and leaves
the table unchanged (it returns the very same state). -/
theorem claim_C1 :
    (∀ (prog : Program) (fuel : Nat) (st : EmitterState) (event : EventName)
       (args : List JSVal) (l : List EE),
       WF st → getListeners st event = l → l ≠ [] →
       (∀ x ∈ l, bodyOf prog x.fn = []) →
       (EventEmitter.emit prog (fuel + 2) st event args).1 = .ok true ∧
       callEntries (EventEmitter.emit prog (fuel + 2) st event args).2.2 =
         l.map (fun x => TraceEntry.call x.fn x.context args)) ∧
    (∀ (prog : Program) (fuel : Nat) (st : EmitterState) (event : EventName)
       (args : List JSVal),
       getListeners st event = [] →
       EventEmitter.emit prog fuel st event args = (.ok false, st, [])) := by
  constructor
  · intro prog fuel st event args l hwf hl hne hb
    have htame : ∀ x ∈ l, ∀ c ∈ bodyOf prog x.fn, tameCmd c = true := by
      intro x hx c hc
      rw [hb x hx] at hc
      simp at hc
    obtain ⟨h1, _, h3⟩ := emit_tame prog fuel st event args l hwf hl hne htame
    exact ⟨h1, h3⟩
  · intro prog fuel st event args hl
    exact emit_no_listeners prog fuel st event args hl

/-- Witness for C1 at a concrete input: one listener on event x receives
the payload with the emitter as context, and emitting an unknown event
returns false without touching the state. -/
theorem claim_C1_witness :
    ((EventEmitter.emit (fun _ => []) 2 stSingle "x" [JSVal.int 1]).1 =
      .ok true ∧
     callEntries (EventEmitter.emit (fun _ => []) 2 stSingle "x"
        [JSVal.int 1]).2.2 =
      [TraceEntry.call (JSVal.fnv 0) JSVal.emitterRef [JSVal.int 1]]) ∧
    EventEmitter.emit (fun _ => []) 7 stSingle "y" [] =
      (.ok false, stSingle, []) := by
  constructor
  · have h := claim_C1.1 (fun _ => []) 0 stSingle "x" [JSVal.int 1]
      [⟨.fnv 0, .emitterRef, false⟩] (by decide) (by decide) (by decide)
      (by decide)
    exact ⟨h.1, h.2.trans (by decide)⟩
  · exact claim_C1.2 (fun _ => []) 7 stSingle "y" [] (by decide)

/-- C3: a listener that is part of the sequence captured by an in-flight
emit is still invoked by that emit even when an earlier listener of the
same dispatch removes it (the off command in the earlier body), because
removal replaces the stored array while the dispatch iterates the array it
captured. -/
theorem claim_C3 (prog : Program) (fuel : Nat) (st : EmitterState)
    (event : EventName) (args : List JSVal) (l : List EE) (i j : Nat)
    (hwf : WF st) (hl : getListeners st event = l)
    (hi : i < l.length) (hj : j < i)
    (htame : ∀ x ∈ l, ∀ c ∈ bodyOf prog x.fn, tameCmd c = true)
    (hrem : Cmd.offC event (l.get ⟨i, hi⟩).fn .undefined false ∈
      bodyOf prog ((l.get ⟨j, Nat.lt_trans hj hi⟩).fn)) :
    TraceEntry.call (l.get ⟨i, hi⟩).fn (l.get ⟨i, hi⟩).context args ∈
      callEntries (EventEmitter.emit prog (fuel + 2) st event args).2.2 := by
  have hne : l ≠ [] := by
    intro h
    subst h
    simp at hi
  obtain ⟨_, _, h3⟩ := emit_tame prog fuel st event args l hwf hl hne htame
  rw [h3]
  exact List.mem_map_of_mem _ (List.get_mem l _ _)

/-- Witness for C3 at a concrete input: function 1 removes function 2
during the dispatch, yet function 2 is still invoked by the same emit. -/
theorem claim_C3_witness :
    TraceEntry.call (JSVal.fnv 2) JSVal.emitterRef [] ∈
      callEntries (EventEmitter.emit progOff 2 stPairOn "x" []).2.2 := by
  have h := claim_C3 progOff 0 stPairOn "x" []
    [⟨.fnv 1, .emitterRef, false⟩, ⟨.fnv 2, .emitterRef, false⟩] 1 0
    (by decide) (by decide) (by decide) (by decide) (by decide) (by decide)
  exact h

theorem addListener_error_iff (st : EmitterState) (event : EventName)
    (fn ctx : JSVal) (oc : Bool) :
    ((∃ err, addListener st event fn ctx oc = .error err) ↔
      fn.isFunction = false) ∧
    (∀ err, addListener st event fn ctx oc = .error err →
      err = .invalidListener) := by
  by_cases hf : fn.isFunction = false
  · have he : addListener st event fn ctx oc = .error .invalidListener := by
      unfold addListener
      rw [if_pos hf]
    constructor
    · exact ⟨fun _ => hf, fun _ => ⟨_, he⟩⟩
    · intro err herr
      rw [he] at herr
      cases herr
      rfl
  · rw [Bool.not_eq_false] at hf
    obtain ⟨st', hok, _⟩ := addListener_ok st event ctx oc hf
    constructor
    · constructor
      · intro ⟨err, herr⟩
        rw [hok] at herr
        cases herr
      · intro h
        rw [hf] at h
        cases h
    · intro err herr
      rw [hok] at herr
      cases herr

/-- C5: the registration operations on, once and addListener fail exactly
when the supplied callback is not a function, the error is always
InvalidListener, and a valid callback always registers successfully (the
error is thrown before any mutation, so a failed registration returns no
state at all and the table is untouched).  The remaining operations are
total functions of the model and can raise nothing. -/
theorem claim_C5 (st : EmitterState) (event : EventName) (fn ctx : JSVal) :
    ((∃ err, EventEmitter.on st event fn ctx = .error err) ↔
      fn.isFunction = false) ∧
    ((∃ err, EventEmitter.once st event fn ctx = .error err) ↔
      fn.isFunction = false) ∧
    ((∃ err, EventEmitter.addListener st event fn ctx = .error err) ↔
      fn.isFunction = false) ∧
    (∀ err, EventEmitter.on st event fn ctx = .error err →
      err = .invalidListener) ∧
    (∀ err, EventEmitter.once st event fn ctx = .error err →
      err = .invalidListener) ∧
    (∀ err, EventEmitter.addListener st event fn ctx = .error err →
      err = .invalidListener) ∧
    (fn.isFunction = true → ∃ st', EventEmitter.on st event fn ctx = .ok st') := by
  have h0 := addListener_error_iff st event fn ctx false
  have h1 := addListener_error_iff st event fn ctx true
  refine ⟨h0.1, h1.1, h0.1, h0.2, h1.2, h0.2, ?_⟩
  intro hf
  obtain ⟨st', hok, _⟩ := addListener_ok st event ctx false hf
  exact ⟨st', hok⟩

/-- Witness for C5 at concrete inputs: registering the non-function 3
fails with InvalidListener, registering a function succeeds. -/
theorem claim_C5_witness :
    EventEmitter.on emptyEmitter "x" (JSVal.int 3) JSVal.undefined =
      .error .invalidListener ∧
    (∃ st', EventEmitter.on emptyEmitter "x" (JSVal.fnv 0) JSVal.undefined =
      .ok st') := by
  constructor
  · have h := claim_C5 emptyEmitter "x" (JSVal.int 3) JSVal.undefined
    obtain ⟨err, herr⟩ := h.1.mpr (by decide)
    have := h.2.2.2.1 err herr
    rw [this] at herr
    exact herr
  · exact (claim_C5 emptyEmitter "x" (JSVal.fnv 0) JSVal.undefined).2.2.2.2.2.2
      (by decide)

/-- C10: a falsy context argument (undefined, null, false, 0 or the empty
string) makes the registration behave exactly as if the context had been
omitted (undefined): the stored listener is bound to the registry instance
itself. -/
theorem claim_C10 (st : EmitterState) (event : EventName) (fn ctx : JSVal)
    (oc : Bool) (hfn : fn.isFunction = true) (hctx : ctx.truthy = false) :
    addListener st event fn ctx oc = addListener st event fn .undefined oc ∧
    EventEmitter.on st event fn ctx = EventEmitter.on st event fn .undefined ∧
    EventEmitter.once st event fn ctx =
      EventEmitter.once st event fn .undefined ∧
    ∃ st', addListener st event fn ctx oc = .ok st' ∧
      getListeners st' event =
        getListeners st event ++ [⟨fn, .emitterRef, oc⟩] := by
  have hsame : ∀ b : Bool, addListener st event fn ctx b =
      addListener st event fn .undefined b := by
    intro b
    unfold addListener
    rw [hctx]
    rfl
  refine ⟨hsame oc, hsame false, hsame true, ?_⟩
  obtain ⟨st', hok, hlist⟩ := addListener_ok st event ctx oc hfn
  rw [hctx] at hlist
  exact ⟨st', hok, by simpa using hlist⟩

/-- Witness for C10 at a concrete input: registering with context 0 stores
the emitter itself as the bound context, exactly like an omitted
context. -/
theorem claim_C10_witness :
    EventEmitter.on emptyEmitter "x" (JSVal.fnv 0) (JSVal.int 0) =
      EventEmitter.on emptyEmitter "x" (JSVal.fnv 0) JSVal.undefined ∧
    (∃ st', addListener emptyEmitter "x" (JSVal.fnv 0) (JSVal.int 0) false =
      .ok st' ∧ getListeners st' "x" =
        getListeners emptyEmitter "x" ++ [⟨.fnv 0, .emitterRef, false⟩]) := by
  have h := claim_C10 emptyEmitter "x" (JSVal.fnv 0) (JSVal.int 0) false
    (by decide) (by decide)
  exact ⟨h.2.1, h.2.2.2⟩

theorem keepB_eq (y : EE) (fn ctx : JSVal) (oc : Bool) :
    keepB y fn ctx oc =
      !(y.fn == fn && (!oc || y.once) && (!ctx.truthy || y.context == ctx)) := by
  unfold keepB
  by_cases h1 : y.fn = fn <;> by_cases h2 : y.once <;>
    by_cases h3 : ctx.truthy <;> by_cases h4 : y.context = ctx <;>
    cases oc <;> simp [h1, h2, h3, h4]

/-- C6 counterexample: the claim says off(e, fn, ctx) removes only the
listeners whose context equals ctx.  Supplying the falsy context 0 removes
the single listener of event x although its stored context is the emitter
itself, not 0, because the source guards the context comparison with the
truthiness test context && ... . -/
theorem claim_C6_cex :
    getListeners stSingle "x" = [⟨.fnv 0, .emitterRef, false⟩] ∧
    JSVal.emitterRef ≠ JSVal.int 0 ∧
    getListeners
      (EventEmitter.removeListener stSingle "x" (.fnv 0) (.int 0) false) "x" =
      [] := by
  decide

/-- C6 as amended: off/removeListener with a truthy supplied context
removes exactly the listeners matching function, context, and (when the
once filter is set) the one-shot flag; a falsy supplied context (such as
the omitted one) disables the context comparison and removes on function
alone; survivors are kept in relative order (the result is a sublist of
the original sequence); and removal on an absent event is a no-op, never
an error. -/
theorem claim_C6 (st : EmitterState) (event : EventName) (fn ctx : JSVal)
    (oc : Bool) :
    (mapGet st.events event = none →
      EventEmitter.removeListener st event fn ctx oc = st) ∧
    (fn.truthy = true →
      getListeners (EventEmitter.removeListener st event fn ctx oc) event =
        (getListeners st event).filter
          (fun y => !(y.fn == fn && (!oc || y.once) &&
            (!ctx.truthy || y.context == ctx))) ∧
      (getListeners (EventEmitter.removeListener st event fn ctx oc)
        event).Sublist (getListeners st event)) ∧
    EventEmitter.off st event fn ctx oc =
      EventEmitter.removeListener st event fn ctx oc := by
  refine ⟨removeListener_absent st event fn ctx oc, ?_, rfl⟩
  intro hfn
  have h := removeListener_getListeners st event ctx oc hfn
  have hcongr : (getListeners st event).filter (fun y => keepB y fn ctx oc) =
      (getListeners st event).filter
        (fun y => !(y.fn == fn && (!oc || y.once) &&
          (!ctx.truthy || y.context == ctx))) := by
    apply List.filter_congr
    intro y hy
    exact keepB_eq y fn ctx oc
  refine ⟨h.trans hcongr, ?_⟩
  rw [h.trans hcongr]
  exact List.filter_sublist _

/-- Witness for C6 at a concrete input: with the truthy non-matching
context obj 5, the single listener of event x (bound to the emitter)
survives the removal. -/
theorem claim_C6_witness :
    getListeners
      (EventEmitter.removeListener stSingle "x" (.fnv 0) (.obj 5) false) "x" =
      [⟨.fnv 0, .emitterRef, false⟩] ∧
    EventEmitter.removeListener stSingle "y" (.fnv 0) .undefined false =
      stSingle := by
  constructor
  · have h := (claim_C6 stSingle "x" (.fnv 0) (.obj 5) false).2.1 (by decide)
    exact h.1.trans (by decide)
  · exact (claim_C6 stSingle "y" (.fnv 0) .undefined false).1 (by decide)

/-- C9 counterexample: the claim says removeAllListeners(e) removes
exactly the entry of e, leaving other events unchanged.  The empty-string
event identifier is falsy, so the source takes the omitted-argument branch
and replaces the whole table: the unrelated event a loses its listener. -/
theorem claim_C9_cex :
    ("" : EventName) ≠ "a" ∧
    getListeners stPairAB "a" = [⟨.fnv 0, .emitterRef, false⟩] ∧
    getListeners (EventEmitter.removeAllListeners stPairAB (some "")) "a" =
      [] := by
  decide

/-- C9 as amended: removeAllListeners with a truthy (non-empty) event
identifier removes exactly that event's sequence, leaving every other
event unchanged; with the argument omitted, or with the falsy empty-string
identifier, it replaces the whole table with an empty one, after which
eventNames is empty; the operation is a total function and never
raises. -/
theorem claim_C9 (st : EmitterState) :
    (∀ e : EventName, e ≠ "" →
      getListeners (EventEmitter.removeAllListeners st (some e)) e = [] ∧
      (∀ e', e' ≠ e →
        getListeners (EventEmitter.removeAllListeners st (some e)) e' =
          getListeners st e') ∧
      EventEmitter.eventNames (EventEmitter.removeAllListeners st (some e)) =
        (EventEmitter.eventNames st).filter (fun x => x ≠ e)) ∧
    ((EventEmitter.removeAllListeners st none).events = [] ∧
     EventEmitter.eventNames (EventEmitter.removeAllListeners st none) = []) ∧
    (EventEmitter.removeAllListeners st (some "")).events = [] := by
  refine ⟨?_, ⟨rfl, rfl⟩, rfl⟩
  intro e he
  unfold EventEmitter.removeAllListeners
  dsimp only
  rw [if_pos he]
  by_cases hh : mapHas st.events e
  · rw [if_pos hh]
    refine ⟨getListeners_clearEvent_self st e, ?_, ?_⟩
    · intro e' he'
      exact getListeners_clearEvent_ne st he'
    · unfold EventEmitter.eventNames clearEvent
      exact map_fst_mapDelete st.events e
  · rw [if_neg hh]
    unfold mapHas at hh
    rw [Bool.not_eq_true] at hh
    have hm : mapGet st.events e = none := by
      cases hq : mapGet st.events e with
      | none => rfl
      | some r => rw [hq] at hh; simp at hh
    refine ⟨by rw [getListeners, hm], fun e' _ => rfl, ?_⟩
    have hnot : e ∉ EventEmitter.eventNames st :=
      (mapGet_eq_none_iff _ _).mp hm
    symm
    apply List.filter_eq_self.mpr
    intro a ha
    simp only [decide_eq_true_eq]
    intro hae
    subst hae
    exact hnot ha

/-- Witness for C9 as amended, at a concrete input: removing all listeners
of event a clears exactly that event and leaves the empty-string event's
listener in place. -/
theorem claim_C9_witness :
    getListeners (EventEmitter.removeAllListeners stPairAB (some "a")) "a" =
      [] ∧
    getListeners (EventEmitter.removeAllListeners stPairAB (some "a")) "" =
      getListeners stPairAB "" := by
  have h := (claim_C9 stPairAB).1 "a" (by decide)
  exact ⟨h.1, h.2.1 "" (by decide)⟩

/-- C7: the key-present-iff-non-empty invariant (packaged in WF together
with key uniqueness and store sanity) is preserved by registration,
removal, removeAllListeners and a whole emit dispatch, including
everything its listener bodies do; under the invariant an event name is
listed by eventNames exactly when it still has listeners, listenerCount
is the length of the current sequence, and once the last listener of an
event is gone the event vanishes from eventNames and its count is 0. -/
theorem claim_C7 :
    (∀ (st st' : EmitterState) (event : EventName) (fn ctx : JSVal)
      (oc : Bool), WF st → addListener st event fn ctx oc = .ok st' →
      WF st') ∧
    (∀ (st : EmitterState) (event : EventName) (fn ctx : JSVal) (oc : Bool),
      WF st → WF (EventEmitter.removeListener st event fn ctx oc)) ∧
    (∀ (st : EmitterState) (ev : Option EventName),
      WF st → WF (EventEmitter.removeAllListeners st ev)) ∧
    (∀ (prog : Program) (fuel : Nat) (st : EmitterState) (event : EventName)
      (args : List JSVal),
      WF st → WF (EventEmitter.emit prog fuel st event args).2.1) ∧
    (∀ (st : EmitterState) (event : EventName), WF st →
      ((event ∈ EventEmitter.eventNames st ↔ getListeners st event ≠ []) ∧
       EventEmitter.listenerCount st event =
         (getListeners st event).length)) ∧
    (∀ (st : EmitterState) (event : EventName), WF st →
      getListeners st event = [] →
      event ∉ EventEmitter.eventNames st ∧
      EventEmitter.listenerCount st event = 0) := by
  have hnames : ∀ (st : EmitterState) (event : EventName), WF st →
      (event ∈ EventEmitter.eventNames st ↔ getListeners st event ≠ []) := by
    intro st event hwf
    constructor
    · intro hmem
      cases hm : mapGet st.events event with
      | none => exact absurd hmem ((mapGet_eq_none_iff _ _).mp hm)
      | some r =>
        rw [getListeners, hm]
        exact (hwf.2.1 _ (mapGet_mem hm)).1
    · intro hne
      by_contra hmem
      have hnone := (mapGet_eq_none_iff st.events event).mpr hmem
      rw [getListeners, hnone] at hne
      exact hne rfl
  refine ⟨?_, ?_, ?_, ?_, ?_, ?_⟩
  · intro st st' event fn ctx oc hwf hok
    exact ((evol_addListener hok) hwf).1
  · intro st event fn ctx oc hwf
    exact ((evol_removeListener st event fn ctx oc) hwf).1
  · intro st ev hwf
    exact ((evol_removeAllListeners st ev) hwf).1
  · intro prog fuel st event args hwf
    exact ((evol_emit prog fuel st event args) hwf).1
  · intro st event hwf
    exact ⟨hnames st event hwf, listenerCount_eq st event⟩
  · intro st event hwf hempty
    constructor
    · intro hmem
      exact (hnames st event hwf).mp hmem hempty
    · rw [listenerCount_eq, hempty]
      rfl

/-- Witness for C7 at a concrete input: after removing the last listener
of event x the state is still well-formed, x is gone from eventNames and
its count is 0; a registration and an emit also preserve
well-formedness. -/
theorem claim_C7_witness :
    WF (EventEmitter.removeListener stSingle "x" (.fnv 0) .undefined false) ∧
    ("x" ∉ EventEmitter.eventNames
      (EventEmitter.removeListener stSingle "x" (.fnv 0) .undefined false) ∧
     EventEmitter.listenerCount
      (EventEmitter.removeListener stSingle "x" (.fnv 0) .undefined false)
      "x" = 0) ∧
    WF (EventEmitter.emit progObs 3 stTwoOnce "x" []).2.1 := by
  refine ⟨?_, ?_, ?_⟩
  · exact claim_C7.2.1 stSingle "x" (.fnv 0) .undefined false (by decide)
  · exact claim_C7.2.2.2.2.2
      (EventEmitter.removeListener stSingle "x" (.fnv 0) .undefined false)
      "x" (by decide) (by decide)
  · exact claim_C7.2.2.2.1 progObs 3 stTwoOnce "x" [] (by decide)

theorem keepB_eq_not_match (y : EE) (fn : JSVal) :
    keepB y fn .undefined true = !(y.fn == fn && y.once) := by
  rw [keepB_once_filter]
  by_cases h1 : y.fn = fn <;> by_cases h2 : y.once <;> simp [h1, h2]

theorem removeListener_once_count (st : EmitterState) (event : EventName)
    {fn : JSVal} (hfn : fn.truthy = true)
    (hcnt : ((getListeners st event).filter
      (fun y => y.fn == fn && y.once)).length = 1) :
    EventEmitter.listenerCount
      (EventEmitter.removeListener st event fn .undefined true) event =
      EventEmitter.listenerCount st event - 1 := by
  rw [listenerCount_eq, listenerCount_eq,
    removeListener_getListeners st event .undefined true hfn]
  have hcongr : (getListeners st event).filter (fun y => keepB y fn .undefined true) =
      (getListeners st event).filter (fun y => !(y.fn == fn && y.once)) := by
    apply List.filter_congr
    intro y _
    exact keepB_eq_not_match y fn
  rw [hcongr]
  rw [← List.countP_eq_length_filter] at hcnt ⊢
  have hsum := countP_add_countP_not (getListeners st event)
    (fun y => y.fn == fn && y.once)
  omega

/-- C2 counterexample: the claim promises that when a one-shot listener is
selected, listenerCount observed from inside its body is exactly one less
than immediately before the selection.  With two one-shot registrations of
the same function (distinct contexts), selecting the first removes BOTH
records, because emit removes by removeListener(event, fn, undefined,
true), which matches on the function alone: the count before the first
selection is 2, yet the body observes 0, and 0 is not 2 - 1. -/
theorem claim_C2_cex :
    EventEmitter.listenerCount stTwoOnce "x" = 2 ∧
    (EventEmitter.emit progObs 3 stTwoOnce "x" []).2.2 =
      [TraceEntry.call (.fnv 0) (.obj 1) [], TraceEntry.obs "x" 0,
       TraceEntry.call (.fnv 0) (.obj 2) [], TraceEntry.obs "x" 0] ∧
    (0 : Nat) ≠ 2 - 1 := by
  refine ⟨by decide, ?_, by decide⟩
  simp [EventEmitter.emit, runEmitLoop, runCmds, runCmd, progObs, stTwoOnce,
    reg, addListener, emptyEmitter, mapGet, mapHas, mapSet, alloc, storeGet,
    storeSet, getListeners, EventEmitter.listenerCount,
    EventEmitter.removeListener, clearEvent, mapDelete, keepB, bodyOf,
    JSVal.truthy, JSVal.isFunction]

/-- C2 as amended: when a one-shot listener is selected, the dispatch
applies removeListener(event, fn, undefined, true) before running its
body, which removes every one-shot listener of the event with the same
function; when the selected listener is the only such record, the count
the body observes is exactly one less than immediately before the
selection.  A one-shot listener whose function is registered once is
invoked by the dispatch that selects it and cannot be invoked by any later
emit of that event: the dispatch leaves only the non-one-shot listeners in
the table. -/
theorem claim_C2 :
    (∀ (prog : Program) (f : Nat) (st : EmitterState) (event : EventName)
       (args : List JSVal) (r i rem : Nat) (x : EE),
       (storeGet st.store r)[i]? = some x →
       x.once = true →
       x.fn.isFunction = true →
       bodyOf prog x.fn = [Cmd.obsCount event] →
       ((getListeners st event).filter
         (fun y => y.fn == x.fn && y.once)).length = 1 →
       ∃ tr', (runEmitLoop prog (f + 1) st event args r i (rem + 1)).2.2 =
         TraceEntry.call x.fn x.context args ::
         TraceEntry.obs event (EventEmitter.listenerCount st event - 1) ::
         tr') ∧
    (∀ (prog : Program) (f f2 : Nat) (st : EmitterState) (event : EventName)
       (args : List JSVal) (l : List EE) (x0 : EE),
       WF st → getListeners st event = l → x0 ∈ l → x0.once = true →
       (∀ x ∈ l, bodyOf prog x.fn = []) →
       (∀ y ∈ l, y.fn = x0.fn → y = x0) →
       TraceEntry.call x0.fn x0.context args ∈
         callEntries (EventEmitter.emit prog (f + 2) st event args).2.2 ∧
       getListeners (EventEmitter.emit prog (f + 2) st event args).2.1 event =
         l.filter (fun y => !y.once) ∧
       (∀ args2, TraceEntry.call x0.fn x0.context args2 ∉
         callEntries (EventEmitter.emit prog (f2 + 2)
           (EventEmitter.emit prog (f + 2) st event args).2.1
           event args2).2.2)) := by
  constructor
  · intro prog f st event args r i rem x hx honce hfn hbody hcnt
    have hrun : ∀ st1 : EmitterState,
        runCmds prog f st1 [Cmd.obsCount event] =
          (none, st1,
            [TraceEntry.obs event (EventEmitter.listenerCount st1 event)]) := by
      intro st1
      simp [runCmds, runCmd]
    simp only [runEmitLoop]
    rw [hx]
    dsimp only
    rw [if_pos honce, hbody, hrun, removeListener_once_count st event
      (JSVal.truthy_of_isFunction hfn) hcnt]
    exact ⟨_, rfl⟩
  · intro prog f f2 st event args l x0 hwf hl hmem honce hb huniq
    have hne : l ≠ [] := by
      intro h
      subst h
      simp at hmem
    have htame : ∀ x ∈ l, ∀ c ∈ bodyOf prog x.fn, tameCmd c = true := by
      intro x hx c hc
      rw [hb x hx] at hc
      simp at hc
    obtain ⟨h1, h2, h3⟩ := emit_tame prog f st event args l hwf hl hne htame
    have hfns : ∀ x ∈ l, x.fn.isFunction = true := by
      intro x hx
      cases hm : mapGet st.events event with
      | none =>
        rw [getListeners, hm] at hl
        exact absurd hl.symm hne
      | some r =>
        have hsg : storeGet st.store r = l := by
          rw [getListeners, hm] at hl
          exact hl
        apply (hwf.2.1 (event, r) (mapGet_mem hm)).2.2
        show x ∈ storeGet st.store r
        rw [hsg]
        exact hx
    have hstate : getListeners
        (EventEmitter.emit prog (f + 2) st event args).2.1 event =
        l.filter (fun y => !y.once) := by
      rw [h2, foldl_empty_bodies prog event l st hb hfns, hl]
      apply List.filter_congr
      intro y hy
      by_cases hyo : y.once
      · rw [survives_self_false hy hyo]
        simp [hyo]
      · simp [survives, hyo]
    refine ⟨?_, hstate, ?_⟩
    · rw [h3]
      exact List.mem_map_of_mem _ hmem
    · intro args2
      by_cases hl2 : l.filter (fun y => !y.once) = []
      · rw [emit_no_listeners prog (f2 + 2) _ event args2
          (hstate.trans hl2)]
        simp [callEntries]
      · have hwf' : WF (EventEmitter.emit prog (f + 2) st event args).2.1 :=
          ((evol_emit prog (f + 2) st event args) hwf).1
        have htame2 : ∀ x ∈ l.filter (fun y => !y.once),
            ∀ c ∈ bodyOf prog x.fn, tameCmd c = true := by
          intro x hx c hc
          rw [hb x (List.mem_of_mem_filter hx)] at hc
          simp at hc
        obtain ⟨_, _, h3'⟩ := emit_tame prog f2 _ event args2 _ hwf' hstate
          hl2 htame2
        rw [h3']
        intro hmem2
        obtain ⟨y, hy, heq⟩ := List.mem_map.mp hmem2
        simp only [TraceEntry.call.injEq] at heq
        have hy' : y ∈ l := List.mem_of_mem_filter hy
        have hyx : y = x0 := huniq y hy' heq.1
        have hyonce : (!y.once) = true := by
          have := List.mem_filter.mp hy
          exact this.2
        rw [hyx, honce] at hyonce
        simp at hyonce

/-- Witness for C2 as amended, at concrete inputs: with a single one-shot
registration of function 0, the body observes count 0 = 1 - 1; the
listener is invoked by the first emit and not by the next one. -/
theorem claim_C2_witness :
    (∃ tr', (runEmitLoop progObs 1 stOneOnce "x" [] 0 0 1).2.2 =
      TraceEntry.call (.fnv 0) .emitterRef [] ::
      TraceEntry.obs "x" (EventEmitter.listenerCount stOneOnce "x" - 1) ::
      tr') ∧
    TraceEntry.call (.fnv 0) .emitterRef [] ∈
      callEntries (EventEmitter.emit (fun _ => []) 2 stOneOnce "x" []).2.2 ∧
    TraceEntry.call (.fnv 0) .emitterRef [] ∉
      callEntries (EventEmitter.emit (fun _ => []) 2
        (EventEmitter.emit (fun _ => []) 2 stOneOnce "x" []).2.1 "x" []).2.2 := by
  refine ⟨?_, ?_⟩
  · exact claim_C2.1 progObs 0 stOneOnce "x" [] 0 0 0
      ⟨.fnv 0, .emitterRef, true⟩ (by decide) (by decide) (by decide)
      (by decide) (by decide)
  · have h := claim_C2.2 (fun _ => []) 0 0 stOneOnce "x" []
      [⟨.fnv 0, .emitterRef, true⟩] ⟨.fnv 0, .emitterRef, true⟩
      (by decide) (by decide) (by decide) (by decide) (by decide) (by decide)
    exact ⟨h.1, h.2.2 []⟩

theorem survives_append (u v : List EE) (y : EE) :
    survives (u ++ v) y = (survives u y && survives v y) := by
  by_cases hy : y.once <;> simp [survives, hy, List.all_append]

theorem evol_listenerStep (prog : Program) (e : EventName) (st : EmitterState)
    (x : EE) : Evol st (listenerStep prog e st x) := by
  unfold listenerStep
  exact evol_trans (evol_onceRemove st e x) (evol_runCmds prog 0 _ _)

theorem evol_foldl_steps (prog : Program) (e : EventName) :
    ∀ (l : List EE) (st : EmitterState),
    Evol st (l.foldl (listenerStep prog e) st) := by
  intro l
  induction l with
  | nil =>
    intro st
    exact evol_refl st
  | cons x t ih =>
    intro st
    rw [List.foldl_cons]
    exact evol_trans (evol_listenerStep prog e st x) (ih _)

theorem getListeners_isFunction {st : EmitterState} {event : EventName}
    {l : List EE} (hwf : WF st) (hl : getListeners st event = l)
    (hne : l ≠ []) : ∀ x ∈ l, x.fn.isFunction = true := by
  intro x hx
  cases hm : mapGet st.events event with
  | none =>
    rw [getListeners, hm] at hl
    exact absurd hl.symm hne
  | some r =>
    have hsg : storeGet st.store r = l := by
      rw [getListeners, hm] at hl
      exact hl
    apply (hwf.2.1 (event, r) (mapGet_mem hm)).2.2
    show x ∈ storeGet st.store r
    rw [hsg]
    exact hx

theorem entry_after_once_prefix (prog : Program) (e : EventName)
    (pre : List EE) (x0 : EE) (st : EmitterState)
    (hb : ∀ x ∈ pre, bodyOf prog x.fn = [])
    (hf : ∀ x ∈ pre, x.fn.isFunction = true)
    (hf0 : x0.fn.isFunction = true) :
    getListeners (if x0.once then
        EventEmitter.removeListener (pre.foldl (listenerStep prog e) st) e
          x0.fn .undefined true
      else pre.foldl (listenerStep prog e) st) e =
      (getListeners st e).filter (fun y => survives (pre ++ [x0]) y) := by
  have hpre := foldl_empty_bodies prog e pre st hb hf
  by_cases h0 : x0.once
  · rw [if_pos h0,
      removeListener_getListeners _ _ _ _ (JSVal.truthy_of_isFunction hf0),
      hpre, List.filter_filter]
    apply List.filter_congr
    intro y _
    rw [keepB_eq_not_match, survives_append]
    by_cases h1 : y.fn = x0.fn
    · by_cases h2 : y.once <;> simp [survives, h0, h1, h2, Bool.and_comm]
    · have h1' : x0.fn ≠ y.fn := fun hh => h1 (Eq.symm hh)
      by_cases h2 : y.once <;>
        simp [survives, h0, h1, h1', h2, Bool.and_comm]
  · rw [if_neg h0, hpre]
    apply List.filter_congr
    intro y _
    rw [survives_append]
    simp [survives, h0]

theorem listenerStep_add_body (prog : Program) (e : EventName)
    (st : EmitterState) (x0 : EE) (g gctx : JSVal) (oc : Bool)
    (hb : bodyOf prog x0.fn =
      [if oc then Cmd.onceC e g gctx else Cmd.onC e g gctx])
    (hg : g.isFunction = true) :
    getListeners (listenerStep prog e st x0) e =
      getListeners (if x0.once then
          EventEmitter.removeListener st e x0.fn .undefined true
        else st) e ++
        [⟨g, if gctx.truthy then gctx else .emitterRef, oc⟩] := by
  unfold listenerStep
  rw [hb]
  obtain ⟨st2, hok, hlist⟩ := addListener_ok
    (if x0.once then EventEmitter.removeListener st e x0.fn .undefined true
      else st) e gctx oc hg
  cases oc with
  | false =>
    simp only [Bool.false_eq_true, if_false]
    simp only [runCmds, runCmd, hok]
    exact hlist
  | true =>
    simp only [if_true]
    simp only [runCmds, runCmd, hok]
    exact hlist

/-- C4: a listener registered via on or via once from inside a listener
body during an in-flight emit of the same event is not invoked during that
emit (the in-flight dispatch already captured its array and cached its
length), but is invoked by the next emit of that event, appended after the
surviving listeners. -/
theorem claim_C4 (prog : Program) (f f2 : Nat) (st : EmitterState)
    (event : EventName) (args args2 : List JSVal) (pre post : List EE)
    (x0 : EE) (g gctx : JSVal) (gid : Nat) (oc : Bool)
    (hwf : WF st) (hl : getListeners st event = pre ++ x0 :: post)
    (hb0 : bodyOf prog x0.fn =
      [if oc then Cmd.onceC event g gctx else Cmd.onC event g gctx])
    (hbs : ∀ x ∈ pre ++ post, bodyOf prog x.fn = [])
    (hg : g = JSVal.fnv gid) (hgb : prog gid = [])
    (hfresh : ∀ x ∈ pre ++ x0 :: post, x.fn ≠ g) :
    (∀ c a, TraceEntry.call g c a ∉
      callEntries (EventEmitter.emit prog (f + 2) st event args).2.2) ∧
    TraceEntry.call g (if gctx.truthy then gctx else .emitterRef) args2 ∈
      callEntries (EventEmitter.emit prog (f2 + 2)
        (EventEmitter.emit prog (f + 2) st event args).2.1 event args2).2.2 := by
  have hgf : g.isFunction = true := by
    rw [hg]
    rfl
  have hne : pre ++ x0 :: post ≠ [] := by simp
  have hfnsAll := getListeners_isFunction hwf hl hne
  have htame : ∀ x ∈ pre ++ x0 :: post, ∀ c ∈ bodyOf prog x.fn,
      tameCmd c = true := by
    intro x hx c hc
    rcases List.mem_append.mp hx with hxp | hxc
    · rw [hbs x (List.mem_append_left _ hxp)] at hc
      simp at hc
    · rcases List.mem_cons.mp hxc with hxe | hxq
      · rw [hxe, hb0] at hc
        simp at hc
        rw [hc]
        cases oc with
        | false => simpa [tameCmd] using hgf
        | true => simpa [tameCmd] using hgf
      · rw [hbs x (List.mem_append_right _ hxq)] at hc
        simp at hc
  obtain ⟨h1, h2, h3⟩ := emit_tame prog f st event args _ hwf hl hne htame
  constructor
  · intro c a hmemC
    rw [h3] at hmemC
    obtain ⟨y, hy, heq⟩ := List.mem_map.mp hmemC
    simp only [TraceEntry.call.injEq] at heq
    exact hfresh y hy heq.1
  · have hsplit2 : (pre ++ x0 :: post).foldl (listenerStep prog event) st =
        post.foldl (listenerStep prog event)
          (listenerStep prog event
            (pre.foldl (listenerStep prog event) st) x0) := by
      rw [List.foldl_append, List.foldl_cons]
    have hf0 : x0.fn.isFunction = true := hfnsAll x0 (by simp)
    have hpreB : ∀ x ∈ pre, bodyOf prog x.fn = [] :=
      fun x hx => hbs x (List.mem_append_left _ hx)
    have hpreF : ∀ x ∈ pre, x.fn.isFunction = true :=
      fun x hx => hfnsAll x (List.mem_append_left _ hx)
    have hpostB : ∀ x ∈ post, bodyOf prog x.fn = [] :=
      fun x hx => hbs x (List.mem_append_right _ hx)
    have hpostF : ∀ x ∈ post, x.fn.isFunction = true :=
      fun x hx => hfnsAll x (by simp [hx])
    have hB : getListeners (listenerStep prog event
        (pre.foldl (listenerStep prog event) st) x0) event =
        (getListeners st event).filter (fun y => survives (pre ++ [x0]) y) ++
        [⟨g, if gctx.truthy then gctx else .emitterRef, oc⟩] := by
      rw [listenerStep_add_body prog event _ x0 g gctx oc hb0 hgf,
        entry_after_once_prefix prog event pre x0 st hpreB hpreF hf0]
    have hsurvg : survives post
        ⟨g, if gctx.truthy then gctx else .emitterRef, oc⟩ = true := by
      cases oc with
      | false => simp [survives]
      | true =>
        simp only [survives, Bool.not_true, Bool.false_or]
        rw [List.all_eq_true]
        intro z hz
        have hzg : z.fn ≠ g := hfresh z (by simp [hz])
        simp [hzg]
    have hC : getListeners
        ((pre ++ x0 :: post).foldl (listenerStep prog event) st) event =
        (((getListeners st event).filter
          (fun y => survives (pre ++ [x0]) y)).filter
          (fun y => survives post y)) ++
        [⟨g, if gctx.truthy then gctx else .emitterRef, oc⟩] := by
      rw [hsplit2, foldl_empty_bodies prog event post _ hpostB hpostF, hB,
        List.filter_append]
      simp [hsurvg]
    have hwfC : WF (EventEmitter.emit prog (f + 2) st event args).2.1 :=
      ((evol_emit prog (f + 2) st event args) hwf).1
    have hentry : getListeners
        (EventEmitter.emit prog (f + 2) st event args).2.1 event =
        (((getListeners st event).filter
          (fun y => survives (pre ++ [x0]) y)).filter
          (fun y => survives post y)) ++
        [⟨g, if gctx.truthy then gctx else .emitterRef, oc⟩] := by
      rw [h2, hC]
    have hne2 : (((getListeners st event).filter
        (fun y => survives (pre ++ [x0]) y)).filter
        (fun y => survives post y)) ++
        [⟨g, if gctx.truthy then gctx else .emitterRef, oc⟩] ≠ [] := by
      simp
    have htame2 : ∀ x ∈ (((getListeners st event).filter
        (fun y => survives (pre ++ [x0]) y)).filter
        (fun y => survives post y)) ++
        [⟨g, if gctx.truthy then gctx else .emitterRef, oc⟩],
        ∀ c ∈ bodyOf prog x.fn, tameCmd c = true := by
      intro x hx c hc
      rcases List.mem_append.mp hx with hxf | hxg
      · have hxl : x ∈ pre ++ x0 :: post := by
          rw [← hl]
          exact List.mem_of_mem_filter (List.mem_of_mem_filter hxf)
        exact htame x hxl c hc
      · simp at hxg
        rw [hxg] at hc
        have hbg : bodyOf prog g = [] := by
          rw [hg]
          exact hgb
        simp only at hc
        rw [hbg] at hc
        simp at hc
    obtain ⟨_, _, h3a⟩ := emit_tame prog f2 _ event args2 _ hwfC hentry hne2
      htame2
    rw [h3a]
    have hmemg : (⟨g, if gctx.truthy then gctx else .emitterRef, oc⟩ : EE) ∈
        (((getListeners st event).filter
          (fun y => survives (pre ++ [x0]) y)).filter
          (fun y => survives post y)) ++
        [⟨g, if gctx.truthy then gctx else .emitterRef, oc⟩] :=
      List.mem_append_right _ (by simp)
    exact List.mem_map_of_mem _ hmemg

/-- Witness for C4 at concrete inputs, covering both registration forms:
function 1 registers function 9 on event x during the dispatch (via on in
the first scenario, via once in the second); in both, function 9 is not
called by that dispatch but is called by the next emit of x. -/
theorem claim_C4_witness :
    ((TraceEntry.call (.fnv 9) .emitterRef [] ∉
      callEntries (EventEmitter.emit progAdd 2 stPairOn "x" []).2.2) ∧
     TraceEntry.call (.fnv 9) .emitterRef [] ∈
      callEntries (EventEmitter.emit progAdd 2
        (EventEmitter.emit progAdd 2 stPairOn "x" []).2.1 "x" []).2.2) ∧
    ((TraceEntry.call (.fnv 9) .emitterRef [] ∉
      callEntries (EventEmitter.emit progAddOnce 2 stPairOn "x" []).2.2) ∧
     TraceEntry.call (.fnv 9) .emitterRef [] ∈
      callEntries (EventEmitter.emit progAddOnce 2
        (EventEmitter.emit progAddOnce 2 stPairOn "x" []).2.1 "x" []).2.2) := by
  constructor
  · have h := claim_C4 progAdd 0 0 stPairOn "x" [] [] []
      [⟨.fnv 2, .emitterRef, false⟩] ⟨.fnv 1, .emitterRef, false⟩ (.fnv 9)
      .undefined 9 false (by decide) (by decide) (by decide) (by decide) rfl
      (by decide) (by decide)
    exact ⟨h.1 .emitterRef [], h.2⟩
  · have h := claim_C4 progAddOnce 0 0 stPairOn "x" [] [] []
      [⟨.fnv 2, .emitterRef, false⟩] ⟨.fnv 1, .emitterRef, false⟩ (.fnv 9)
      .undefined 9 true (by decide) (by decide) (by decide) (by decide) rfl
      (by decide) (by decide)
    exact ⟨h.1 .emitterRef [], h.2⟩


/-- C8: when a listener body throws during a dispatch, the error value
propagates unmodified to the caller of emit, the listeners after it in the
captured order are not invoked (the invocation list stops exactly at the
thrower), and the one-shot removals already performed stay performed: every
one-shot listener up to and including the thrower is gone from the final
table. -/
theorem claim_C8 (prog : Program) (f : Nat) (st : EmitterState)
    (event : EventName) (args : List JSVal) (pre post : List EE) (x0 : EE)
    (code : Nat)
    (hwf : WF st) (hl : getListeners st event = pre ++ x0 :: post)
    (hbs : ∀ x ∈ pre, bodyOf prog x.fn = [])
    (hb0 : bodyOf prog x0.fn = [Cmd.throwC code]) :
    (EventEmitter.emit prog (f + 2) st event args).1 =
      .error (.listenerThrew code) ∧
    callEntries (EventEmitter.emit prog (f + 2) st event args).2.2 =
      (pre ++ [x0]).map (fun x => TraceEntry.call x.fn x.context args) ∧
    (∀ x ∈ pre ++ [x0], x.once = true →
      x ∉ getListeners (EventEmitter.emit prog (f + 2) st event args).2.1
        event) := by
  have hne : pre ++ x0 :: post ≠ [] := by simp
  have hfnsAll := getListeners_isFunction hwf hl hne
  have hpreF : ∀ x ∈ pre, x.fn.isFunction = true :=
    fun x hx => hfnsAll x (List.mem_append_left _ hx)
  have hf0 : x0.fn.isFunction = true := hfnsAll x0 (by simp)
  cases hm : mapGet st.events event with
  | none =>
    rw [getListeners, hm] at hl
    exact absurd hl.symm hne
  | some r =>
    have hstore : storeGet st.store r = pre ++ x0 :: post := by
      rw [getListeners, hm] at hl
      exact hl
    have hlen : ¬ (storeGet st.store r).length = 0 := by
      rw [hstore]
      simp
    have hreads : ∀ j, (hj : j < pre.length) →
        (storeGet st.store r)[0 + j]? = some (pre.get ⟨j, hj⟩) := by
      intro j hj
      rw [hstore, Nat.zero_add, List.getElem?_append, if_pos hj,
        List.getElem?_eq_getElem hj]
      simp
    have htamepre : ∀ x ∈ pre, ∀ c ∈ bodyOf prog x.fn, tameCmd c = true := by
      intro x hx c hc
      rw [hbs x hx] at hc
      simp at hc
    obtain ⟨tr0, hcalls, heq⟩ := emitLoop_tame prog event args r f pre st 0
      (post.length + 1) hwf hreads htamepre
    obtain ⟨hwfA, hleA⟩ := evol_foldl_steps prog event pre st hwf
    have hx0A : (storeGet
        (pre.foldl (listenerStep prog event) st).store r)[0 + pre.length]? =
        some x0 := by
      apply prefix_getElem_some (hleA.2 r)
      rw [Nat.zero_add, hstore, List.getElem?_append,
        if_neg (Nat.lt_irrefl _)]
      simp
    have hcont : runEmitLoop prog (f + 1)
        (pre.foldl (listenerStep prog event) st) event args r
        (0 + pre.length) (post.length + 1) =
        (some (.listenerThrew code),
         (if x0.once then
            EventEmitter.removeListener
              (pre.foldl (listenerStep prog event) st) event x0.fn
              .undefined true
          else pre.foldl (listenerStep prog event) st),
         [TraceEntry.call x0.fn x0.context args]) := by
      simp only [runEmitLoop]
      rw [hx0A]
      dsimp only
      rw [hb0]
      simp [runCmds, runCmd]
    rw [hcont] at heq
    have hrw := emit_unfold prog (f + 1) st event args hm hlen
    rw [show f + 1 + 1 = f + 2 from rfl] at hrw
    have hlen2 : (storeGet st.store r).length =
        pre.length + (post.length + 1) := by
      rw [hstore]
      simp
    rw [hlen2, heq] at hrw
    have hentry : getListeners (if x0.once then
        EventEmitter.removeListener
          (pre.foldl (listenerStep prog event) st) event x0.fn
          .undefined true
      else pre.foldl (listenerStep prog event) st) event =
        (getListeners st event).filter
          (fun y => survives (pre ++ [x0]) y) :=
      entry_after_once_prefix prog event pre x0 st hbs hpreF hf0
    rw [hrw]
    refine ⟨rfl, ?_, ?_⟩
    · rw [callEntries_append, hcalls, callEntries_cons_call]
      simp [callEntries]
    · intro x hx hxonce
      simp only
      rw [hentry]
      intro hmem
      have hsurv := (List.mem_filter.mp hmem).2
      rw [survives_self_false hx hxonce] at hsurv
      cases hsurv

/-- Witness for C8 at a concrete input: the one-shot function 0 runs,
function 1 throws 42, function 2 is never called, the error surfaces
unmodified, and function 0's one-shot removal stays applied. -/
theorem claim_C8_witness :
    (EventEmitter.emit progThrow 2 stTriple "x" []).1 =
      .error (.listenerThrew 42) ∧
    callEntries (EventEmitter.emit progThrow 2 stTriple "x" []).2.2 =
      [TraceEntry.call (.fnv 0) .emitterRef [],
       TraceEntry.call (.fnv 1) .emitterRef []] ∧
    (⟨.fnv 0, .emitterRef, true⟩ : EE) ∉
      getListeners (EventEmitter.emit progThrow 2 stTriple "x" []).2.1 "x" := by
  have h := claim_C8 progThrow 0 stTriple "x" []
    [⟨.fnv 0, .emitterRef, true⟩] [⟨.fnv 2, .emitterRef, false⟩]
    ⟨.fnv 1, .emitterRef, false⟩ 42
    (by decide) (by decide) (by decide) (by decide)
  exact ⟨h.1, h.2.1.trans (by decide), h.2.2 _ (by decide) (by decide)⟩
